import Mathlib

/-!
# Verification of the robocluster-manager discovery core

Shallow embedding of `sync.py` (socket loop, JSON codec, advertiser and
registry roles) and `ProcessManager.py` (`RoboProcess`), with theorems
settling the specification's claims about them.

Conventions of the embedding:
* Python `str` values are `List Char` (Unicode scalar values); Python `bytes`
  are `List Nat` (each entry a byte).
* Machine-independent Python integers are `Int`/`Nat`.  Floats are outside the
  embedding; JSON numbers are modelled as integers.
* Fallible Python code returns `Except PyError _`; an `Except.error` models an
  exception escaping the modelled function.
-/

set_option maxHeartbeats 1000000

namespace Robocluster

/-- Python exceptions that matter to this development.  `timeoutExpired` is
`subprocess.TimeoutExpired` (a subclass of `SubprocessError`, *not* of
`TimeoutError`); `unicodeDecodeError` is `UnicodeDecodeError` (a `ValueError`
that is *not* a `json.JSONDecodeError`). -/
inductive PyError where
  | unicodeDecodeError
  | timeoutExpired
  | timeoutError
  | runtimeError
  deriving DecidableEq

/-- A JSON-serializable Python value: `None`, `bool`, `int`, `str`, `list`,
`dict` with string keys (the spec's "mapping of string keys to
primitive/structured values").  Floats are not representable in the
embedding. -/
inductive Json where
  | null
  | bool (b : Bool)
  | num (n : Int)
  | str (s : List Char)
  | arr (elems : List Json)
  | obj (members : List (List Char × Json))

/-- Python truthiness (`bool(x)`) on the embedded values: `None`, `False`,
`0`, `""`, `[]` and `{}` are falsy, everything else truthy. -/
def pyFalsy : Json → Bool
  | .null => true
  | .bool b => !b
  | .num n => n == 0
  | .str s => s.isEmpty
  | .arr xs => xs.isEmpty
  | .obj kvs => kvs.isEmpty

/-- Truthiness of an `Option Json`, where `none` models Python `None`
(the `NO_MESSAGE` sentinel returned by `decode`). -/
def pyFalsyOpt : Option Json → Bool
  | none => true
  | some v => pyFalsy v

/-! ## Decimal digits (Python `repr` of an `int`) -/

/-- Character for a decimal digit value. -/
def digitChar (n : Nat) : Char := Char.ofNat (48 + n)

/-- Fueled most-significant-first decimal digits; fuel `n + 1` always
suffices since the argument strictly shrinks under `/ 10`. -/
def natDigitsF : Nat → Nat → List Char
  | 0, _ => []
  | f + 1, n => if n < 10 then [digitChar n] else natDigitsF f (n / 10) ++ [digitChar (n % 10)]

/-- Decimal digit string of a natural number, as Python `repr` prints it. -/
def natDigits (n : Nat) : List Char := natDigitsF (n + 1) n

/-- `repr` of a Python `int`, which is how `json.dumps` serializes integers. -/
def serInt (n : Int) : List Char :=
  if n < 0 then '-' :: natDigits n.natAbs else natDigits n.toNat

/-! ## String escaping (`json.encoder.py_encode_basestring_ascii`) -/

/-- Lower-case hex digit character. -/
def hexDigitChar (n : Nat) : Char :=
  if n < 10 then Char.ofNat (48 + n) else Char.ofNat (87 + n)

/-- Four-digit lower-case hex rendering, as in `'\\u{0:04x}'.format n`. -/
def hex4 (n : Nat) : List Char :=
  [hexDigitChar (n / 4096 % 16), hexDigitChar (n / 256 % 16),
   hexDigitChar (n / 16 % 16), hexDigitChar (n % 16)]

/-- Escape one character the way `json.dumps` does with the default
`ensure_ascii=True`: `"` and `\` get a backslash, the five short control
escapes are used for \b \t \n \f \r, printable ASCII is emitted verbatim,
and everything else becomes `\uXXXX` (a UTF-16 surrogate pair for code
points beyond the BMP). -/
def escapeChar (c : Char) : List Char :=
  if c.toNat = 34 then ['\\', '"']
  else if c.toNat = 92 then ['\\', '\\']
  else if c.toNat = 8 then ['\\', 'b']
  else if c.toNat = 9 then ['\\', 't']
  else if c.toNat = 10 then ['\\', 'n']
  else if c.toNat = 12 then ['\\', 'f']
  else if c.toNat = 13 then ['\\', 'r']
  else if 32 ≤ c.toNat ∧ c.toNat ≤ 126 then [c]
  else if c.toNat < 65536 then '\\' :: 'u' :: hex4 c.toNat
  else ('\\' :: 'u' :: hex4 (55296 + (c.toNat - 65536) / 1024))
       ++ ('\\' :: 'u' :: hex4 (56320 + (c.toNat - 65536) % 1024))

/-- Escape a whole string. -/
def escapeString : List Char → List Char
  | [] => []
  | c :: cs => escapeChar c ++ escapeString cs

/-! ## Serializer (`json.dumps`, default separators `", "` and `": "`) -/

mutual

/-- `json.dumps` with its defaults (`ensure_ascii=True`, item separator
`", "`, key separator `": "`), restricted to the embedded value type. -/
def dumps : Json → List Char
  | .null => 'n' :: 'u' :: 'l' :: 'l' :: []
  | .bool true => 't' :: 'r' :: 'u' :: 'e' :: []
  | .bool false => 'f' :: 'a' :: 'l' :: 's' :: 'e' :: []
  | .num n => serInt n
  | .str s => '"' :: escapeString s ++ ['"']
  | .arr [] => ['[', ']']
  | .arr (x :: xs) => '[' :: (dumps x ++ dumpsTail xs) ++ [']']
  | .obj [] => ['{', '}']
  | .obj (kv :: kvs) => '{' :: (dumpsMember kv ++ dumpsMemTail kvs) ++ ['}']

/-- One `key: value` member of an object. -/
def dumpsMember : List Char × Json → List Char
  | (k, v) => '"' :: escapeString k ++ '"' :: ':' :: ' ' :: dumps v

/-- Remaining array elements, each preceded by the `", "` separator. -/
def dumpsTail : List Json → List Char
  | [] => []
  | x :: xs => ',' :: ' ' :: (dumps x ++ dumpsTail xs)

/-- Remaining object members, each preceded by the `", "` separator. -/
def dumpsMemTail : List (List Char × Json) → List Char
  | [] => []
  | kv :: kvs => ',' :: ' ' :: (dumpsMember kv ++ dumpsMemTail kvs)

end

/-! ## Parser (`json.loads` / `json.decoder`), restricted to the embedded
value type.  Inputs that Python would parse as floats (fraction or exponent
parts) are rejected by the model, and `\uXXXX` escapes denoting lone
surrogates (which Python keeps as surrogate code units in its `str`) are
rejected since `Char` holds only Unicode scalar values; neither case is
reachable from serializer output. -/

/-- Skip JSON whitespace (`[ \t\n\r]*`, the decoder's `WHITESPACE`). -/
def skipWs : List Char → List Char
  | [] => []
  | c :: rest =>
    if c.toNat = 32 ∨ c.toNat = 9 ∨ c.toNat = 10 ∨ c.toNat = 13 then skipWs rest
    else c :: rest

/-- Value of one hex digit (both cases accepted, as `int(_, 16)` does). -/
def hexVal (c : Char) : Option Nat :=
  let n := c.toNat
  if 48 ≤ n ∧ n ≤ 57 then some (n - 48)
  else if 97 ≤ n ∧ n ≤ 102 then some (n - 87)
  else if 65 ≤ n ∧ n ≤ 70 then some (n - 55)
  else none

/-- Value of a four-hex-digit group of a `\uXXXX` escape. -/
def hexVal4 (a b c d : Char) : Option Nat :=
  match hexVal a, hexVal b, hexVal c, hexVal d with
  | some x, some y, some z, some w => some (((x * 16 + y) * 16 + z) * 16 + w)
  | _, _, _, _ => none

/-- Single-character escapes accepted after a backslash
(`json.decoder.BACKSLASH`). -/
def escUnmap (e : Char) : Option Char :=
  if e = '"' then some '"'
  else if e = '\\' then some '\\'
  else if e = '/' then some '/'
  else if e = 'b' then some (Char.ofNat 8)
  else if e = 'f' then some (Char.ofNat 12)
  else if e = 'n' then some (Char.ofNat 10)
  else if e = 'r' then some (Char.ofNat 13)
  else if e = 't' then some (Char.ofNat 9)
  else none

/-- One step of the `py_scanstring` loop (`strict=True`): consume the
closing quote, one escape sequence, or one raw character (raw control
characters are rejected).  Surrogate pairs in `\uXXXX` escapes are
recombined as Python's scanner does; a lone-surrogate escape (which Python
would keep as a surrogate code unit in its `str`) has no `Char`
counterpart and is rejected by the model. -/
inductive StrStep where
  | done (rest : List Char)
  | chr (c : Char) (rest : List Char)
  | fail

/-- Classify and consume the next chunk of a string literal body. -/
def stringChunk : List Char → StrStep
  | [] => .fail
  | c :: rest =>
    if c = '"' then .done rest
    else if c = '\\' then
      match rest with
      | 'u' :: h1 :: h2 :: h3 :: h4 :: rest3 =>
        match hexVal4 h1 h2 h3 h4 with
        | none => .fail
        | some n =>
          if 55296 ≤ n ∧ n < 56320 then
            match rest3 with
            | '\\' :: 'u' :: g1 :: g2 :: g3 :: g4 :: rest4 =>
              match hexVal4 g1 g2 g3 g4 with
              | none => .fail
              | some m =>
                if 56320 ≤ m ∧ m < 57344 then
                  .chr (Char.ofNat (65536 + (n - 55296) * 1024 + (m - 56320))) rest4
                else .fail
            | _ => .fail
          else if 56320 ≤ n ∧ n < 57344 then .fail
          else .chr (Char.ofNat n) rest3
      | e :: rest2 =>
        match escUnmap e with
        | none => .fail
        | some c2 => .chr c2 rest2
      | [] => .fail
    else if c.toNat < 32 then .fail
    else .chr c rest

/-- Body of a string literal after the opening quote: iterate
`stringChunk` until the closing quote.  Fueled; every chunk consumes at
least one character, so fuel `input length + 1` always suffices. -/
def parseStringBody : Nat → List Char → Option (List Char × List Char)
  | 0, _ => none
  | f + 1, s =>
    match stringChunk s with
    | .done rest => some ([], rest)
    | .chr c rest =>
      match parseStringBody f rest with
      | none => none
      | some (l, r) => some (c :: l, r)
    | .fail => none

/-- Decimal digit test. -/
def isDigitCh (c : Char) : Bool := decide (48 ≤ c.toNat ∧ c.toNat ≤ 57)

/-- Accumulate a maximal run of decimal digits. -/
def munchDigits (acc : Nat) : List Char → Nat × List Char
  | [] => (acc, [])
  | c :: rest =>
    if isDigitCh c then munchDigits (acc * 10 + (c.toNat - 48)) rest
    else (acc, c :: rest)

/-- After the integer part, Python's `NUMBER_RE` would continue into a
fraction or exponent and produce a float; floats are outside the embedding,
so the model rejects such inputs.  Serializer output (integers only) never
hits this case. -/
def noFloat : Nat × List Char → Option (Nat × List Char)
  | (n, rest) =>
    match rest with
    | c :: _ => if c = '.' ∨ c = 'e' ∨ c = 'E' then none else some (n, rest)
    | [] => some (n, rest)

/-- Unsigned integer part of a number: `0` or a nonzero digit followed by a
maximal digit run (`(?:0|[1-9]\d*)`). -/
def parseUNum : List Char → Option (Nat × List Char)
  | [] => none
  | c :: rest =>
    if c = '0' then noFloat (0, rest)
    else if isDigitCh c then noFloat (munchDigits (c.toNat - 48) rest)
    else none

/-- A number token, with optional leading minus. -/
def parseNumber : List Char → Option (Json × List Char)
  | [] => none
  | c :: rest =>
    if c = '-' then
      match parseUNum rest with
      | some (n, r) => some (.num (-(n : Int)), r)
      | none => none
    else
      match parseUNum (c :: rest) with
      | some (n, r) => some (.num (n : Int), r)
      | none => none

mutual

/-- One JSON value (`scan_once`), fueled: `fuel` bounds the number of
nested scanner steps, and any fuel at least `input length + 1` is enough. -/
def parseValue : Nat → List Char → Option (Json × List Char)
  | 0, _ => none
  | f + 1, s =>
    match skipWs s with
    | [] => none
    | c :: rest =>
      if c = 'n' then
        match rest with
        | 'u' :: 'l' :: 'l' :: r => some (.null, r)
        | _ => none
      else if c = 't' then
        match rest with
        | 'r' :: 'u' :: 'e' :: r => some (.bool true, r)
        | _ => none
      else if c = 'f' then
        match rest with
        | 'a' :: 'l' :: 's' :: 'e' :: r => some (.bool false, r)
        | _ => none
      else if c = '"' then
        match parseStringBody (rest.length + 1) rest with
        | some (str, r) => some (.str str, r)
        | none => none
      else if c = '[' then
        match skipWs rest with
        | ']' :: r => some (.arr [], r)
        | s2 =>
          match parseElems f s2 with
          | some (xs, r) => some (.arr xs, r)
          | none => none
      else if c = '{' then
        match skipWs rest with
        | '}' :: r => some (.obj [], r)
        | s2 =>
          match parseMembers f s2 with
          | some (kvs, r) => some (.obj kvs, r)
          | none => none
      else parseNumber (c :: rest)

/-- Nonempty element list of an array, after the opening bracket. -/
def parseElems : Nat → List Char → Option (List Json × List Char)
  | 0, _ => none
  | f + 1, s =>
    match parseValue f s with
    | none => none
    | some (v, r) =>
      match skipWs r with
      | ',' :: r2 =>
        match parseElems f r2 with
        | some (vs, r3) => some (v :: vs, r3)
        | none => none
      | ']' :: r2 => some ([v], r2)
      | _ => none

/-- Nonempty member list of an object, after the opening brace; keys must be
double-quoted strings. -/
def parseMembers : Nat → List Char → Option (List (List Char × Json) × List Char)
  | 0, _ => none
  | f + 1, s =>
    match skipWs s with
    | '"' :: r =>
      match parseStringBody (r.length + 1) r with
      | none => none
      | some (k, r1) =>
        match skipWs r1 with
        | ':' :: r2 =>
          match parseValue f r2 with
          | none => none
          | some (v, r3) =>
            match skipWs r3 with
            | ',' :: r4 =>
              match parseMembers f r4 with
              | some (kvs, r5) => some ((k, v) :: kvs, r5)
              | none => none
            | '}' :: r4 => some ([(k, v)], r4)
            | _ => none
        | _ => none
    | _ => none

end

/-- `json.loads` on text: skip leading whitespace, scan one value, require
only whitespace to remain ("Extra data" otherwise).  `none` models a
`json.JSONDecodeError` being raised. -/
def pyJsonLoads (s : List Char) : Option Json :=
  match parseValue (s.length + 1) s with
  | some (v, rest) => if skipWs rest = [] then some v else none
  | none => none

/-! ## UTF-8 layer (`str.encode('utf-8')` / `bytes.decode('utf-8')`).
`json.loads` on `bytes` first decodes them; for BOM-free input (all inputs
in this development) `json.detect_encoding` selects UTF-8. -/

/-- UTF-8 encoding of one scalar value. -/
def utf8EncodeChar (c : Char) : List Nat :=
  if c.toNat < 128 then [c.toNat]
  else if c.toNat < 2048 then [192 + c.toNat / 64, 128 + c.toNat % 64]
  else if c.toNat < 65536 then
    [224 + c.toNat / 4096, 128 + c.toNat / 64 % 64, 128 + c.toNat % 64]
  else
    [240 + c.toNat / 262144, 128 + c.toNat / 4096 % 64, 128 + c.toNat / 64 % 64,
     128 + c.toNat % 64]

/-- `str.encode('utf-8')`. -/
def strEncodeUtf8 : List Char → List Nat
  | [] => []
  | c :: cs => utf8EncodeChar c ++ strEncodeUtf8 cs

/-- Decode one UTF-8-encoded scalar value: lead byte `b` plus following
bytes; returns the scalar and the remaining bytes, or `none` on an invalid
sequence (continuation lead, overlong form, surrogate, out of range).
(Python's `json.loads` uses the `surrogatepass` handler, which additionally
accepts 3-byte encodings of surrogates; those have no `Char` counterpart
and no theorem below exercises them.) -/
def utf8Chunk (b : Nat) (rest : List Nat) : Option (Char × List Nat) :=
  if b < 128 then some (Char.ofNat b, rest)
  else if b < 194 then none
  else if b < 224 then
    match rest with
    | b2 :: r2 =>
      if 128 ≤ b2 ∧ b2 < 192 then some (Char.ofNat ((b - 192) * 64 + (b2 - 128)), r2)
      else none
    | [] => none
  else if b < 240 then
    match rest with
    | b2 :: b3 :: r3 =>
      if 128 ≤ b2 ∧ b2 < 192 ∧ 128 ≤ b3 ∧ b3 < 192 then
        if (b - 224) * 4096 + (b2 - 128) * 64 + (b3 - 128) < 2048 ∨
            (55296 ≤ (b - 224) * 4096 + (b2 - 128) * 64 + (b3 - 128) ∧
              (b - 224) * 4096 + (b2 - 128) * 64 + (b3 - 128) < 57344) then none
        else some (Char.ofNat ((b - 224) * 4096 + (b2 - 128) * 64 + (b3 - 128)), r3)
      else none
    | _ => none
  else if b < 245 then
    match rest with
    | b2 :: b3 :: b4 :: r4 =>
      if 128 ≤ b2 ∧ b2 < 192 ∧ 128 ≤ b3 ∧ b3 < 192 ∧ 128 ≤ b4 ∧ b4 < 192 then
        if (b - 240) * 262144 + (b2 - 128) * 4096 + (b3 - 128) * 64 + (b4 - 128) < 65536 ∨
            1114112 ≤ (b - 240) * 262144 + (b2 - 128) * 4096 + (b3 - 128) * 64 + (b4 - 128)
        then none
        else some (Char.ofNat ((b - 240) * 262144 + (b2 - 128) * 4096 +
          (b3 - 128) * 64 + (b4 - 128)), r4)
      else none
    | _ => none
  else none

/-- Fueled decode loop; each chunk consumes at least one byte, so fuel
`input length + 1` always suffices. -/
def utf8DecodeLoop : Nat → List Nat → Option (List Char)
  | _, [] => some []
  | 0, _ :: _ => none
  | f + 1, b :: rest =>
    match utf8Chunk b rest with
    | none => none
    | some (c, rest2) =>
      match utf8DecodeLoop f rest2 with
      | none => none
      | some cs => some (c :: cs)

/-- Strict UTF-8 decoding of a byte sequence; `none` models a
`UnicodeDecodeError`. -/
def utf8DecodeBytes (bytes : List Nat) : Option (List Char) :=
  utf8DecodeLoop (bytes.length + 1) bytes

/-! ## The `JSONSocketLoop` codec (`sync.py` lines 156-171) -/

/-- `JSONSocketLoop.encode`: `json.dumps(packet).encode('utf-8')`. -/
def JSONSocketLoop.encode (packet : Json) : List Nat :=
  strEncodeUtf8 (dumps packet)

/-- `JSONSocketLoop.decode`: `json.loads(packet)` with *only*
`json.JSONDecodeError` caught (returning `None`, the `NO_MESSAGE`
sentinel).  `json.loads` on `bytes` first decodes them to `str`; a
`UnicodeDecodeError` raised there is not a `JSONDecodeError` and escapes
the `except` clause. -/
def JSONSocketLoop.decode (packet : List Nat) : Except PyError (Option Json) :=
  match utf8DecodeBytes packet with
  | none => .error .unicodeDecodeError
  | some s => .ok (pyJsonLoads s)

/-! ## Readiness-driven operations (`BaseSocketLoop.recvfrom` / `sendto`,
`sync.py` lines 81-143)

One in-flight operation is modelled by its observable effects: whether its
per-socket readiness callback is currently registered with the event loop,
how many times `set_result` has been called on its future, how many
non-blocking syscalls were attempted on the socket, and how many of them
wrote data.  The outcome of each non-blocking attempt (the behaviour of the
OS socket) is an input to the model. -/

/-- Result of one non-blocking socket syscall: `BlockingIOError` /
`InterruptedError`, or success carrying the syscall's return value. -/
inductive SysOutcome (α : Type) where
  | wouldBlock
  | ok (v : α)

/-- Observable state of one pending `recvfrom`/`sendto` operation. -/
structure OpState where
  readerRegistered : Bool
  writerRegistered : Bool
  futureCreated : Bool
  resolutions : Nat
  syscalls : Nat
  writes : Nat
  deriving DecidableEq

/-- Fresh state before the first invocation. -/
def initOp : OpState :=
  { readerRegistered := false, writerRegistered := false, futureCreated := false,
    resolutions := 0, syscalls := 0, writes := 0 }

/-- A peer address as Python sees it: `(host string, port)`. -/
abbrev Addr := List Char × Nat

/-- One invocation of `BaseSocketLoop.recvfrom` (lines 81-107).  On the
first call (`future is None`) a future is created; on a re-invocation from
the readiness callback the reader callback is first removed
(`loop.remove_reader`).  Then `sock.recvfrom` is attempted: would-block
re-registers the callback (`loop.add_reader`), success decodes and resolves
the future (`future.set_result`). -/
def recvfromCall (firstCall : Bool) (outcome : SysOutcome (List Nat × Addr))
    (st : OpState) : OpState :=
  let st := if firstCall then { st with futureCreated := true }
            else { st with readerRegistered := false }
  let st := { st with syscalls := st.syscalls + 1 }
  match outcome with
  | .wouldBlock => { st with readerRegistered := true }
  | .ok _ => { st with resolutions := st.resolutions + 1 }

/-- Deliver further readiness events: the event loop re-invokes `recvfrom`
only while its reader callback is registered. -/
def recvfromRunAux (st : OpState) : List (SysOutcome (List Nat × Addr)) → OpState
  | [] => st
  | o :: os =>
    if st.readerRegistered then recvfromRunAux (recvfromCall false o st) os
    else st

/-- A whole `recvfrom` operation: the first call followed by the readiness
re-invocations, driven by the listed syscall outcomes. -/
def recvfromRun : List (SysOutcome (List Nat × Addr)) → OpState
  | [] => initOp
  | o :: os => recvfromRunAux (recvfromCall true o initOp) os

/-- One invocation of `BaseSocketLoop.sendto` (lines 114-143).  On the
first call a future is created; on re-invocation the writer callback is
removed (`loop.remove_writer`).  Then, *before touching the socket*, a
falsy `data` makes the function return Python `None` (not the future!).
Otherwise `self.encode(data)` and `sock.sendto` are attempted: would-block
registers the writer callback, success resolves the future with the byte
count.  The first component models the Python return value: `none` is
Python's `None`, `some ()` is the operation's future. -/
def sendtoCall (firstCall : Bool) (data : Json) (outcome : SysOutcome Nat)
    (st : OpState) : Option Unit × OpState :=
  let st := if firstCall then { st with futureCreated := true }
            else { st with writerRegistered := false }
  if pyFalsy data then (none, st)
  else
    let st := { st with syscalls := st.syscalls + 1 }
    match outcome with
    | .wouldBlock => (some (), { st with writerRegistered := true })
    | .ok _ => (some (), { st with resolutions := st.resolutions + 1, writes := st.writes + 1 })

/-- Deliver further write-readiness events while the writer callback is
registered. -/
def sendtoRunAux (data : Json) (st : OpState) : List (SysOutcome Nat) → OpState
  | [] => st
  | o :: os =>
    if st.writerRegistered then sendtoRunAux data (sendtoCall false data o st).2 os
    else st

/-- A whole `sendto` operation. -/
def sendtoRun (data : Json) : List (SysOutcome Nat) → OpState
  | [] => initOp
  | o :: os => sendtoRunAux data (sendtoCall true data o initOp).2 os

/-! ## The Registry's broadcast listener (`ServerLoop.discover`,
`sync.py` lines 216-225) -/

/-- Body of one iteration of `discover`'s `while True` loop: `recvfrom`
yielded `(data, address)`; `if not data: continue` skips falsy data,
otherwise the observation is printed (recorded). -/
def discoverStep (log : List (Option Json × Addr)) (recv : Option Json × Addr) :
    List (Option Json × Addr) :=
  if pyFalsyOpt recv.1 then log else log ++ [recv]

/-- The listener loop over a finite prefix of received datagrams. -/
def discoverLoop (log : List (Option Json × Addr)) :
    List (Option Json × Addr) → List (Option Json × Addr)
  | [] => log
  | r :: rs => discoverLoop (discoverStep log r) rs

/-! ## The Advertiser role (`ServiceLoop`, `sync.py` lines 174-197) -/

/-- `2^(32-prefixLen) - 1`: the IPv4 host mask of a CIDR prefix, as
`ipaddress` computes it. -/
def hostmask (prefixLen : Nat) : Nat := 2 ^ (32 - prefixLen) - 1

/-- A parsed CIDR subnet: `ip_network` (strict) requires the host bits of
the network address to be zero. -/
structure SubnetCfg where
  netAddr : Nat
  prefixLen : Nat

/-- `ip_network(subnet).broadcast_address` as an integer:
`int(network_address) | int(hostmask)`. -/
def SubnetCfg.broadcastAddress (c : SubnetCfg) : Nat :=
  c.netAddr ||| hostmask c.prefixLen

/-- `a` is an address of the subnet: same network prefix, in IPv4 range. -/
def SubnetCfg.memberAddr (c : SubnetCfg) (a : Nat) : Prop :=
  a < 2 ^ 32 ∧ a >>> (32 - c.prefixLen) = c.netAddr >>> (32 - c.prefixLen)

/-- State built by `ServiceLoop.__init__`: the subnet's broadcast address
(`ip_network(subnet).broadcast_address.compressed`) and the port. -/
structure ServiceLoopState where
  broadcast : Nat
  port : Nat

/-- `ServiceLoop.__init__(subnet, port)`. -/
def ServiceLoop.init (subnet : SubnetCfg) (port : Nat) : ServiceLoopState :=
  { broadcast := subnet.broadcastAddress, port := port }

/-- Observable actions of the advertise loop. -/
inductive AdvEvent where
  | sent (dest : Nat × Nat) (msg : Json)
  | slept (secs : Nat)

/-- The Python string "time". -/
def timeKey : List Char := ['t', 'i', 'm', 'e']

/-- One iteration of `ServiceLoop.advertise`'s `while True` body, at clock
reading `now`: build `{'time': time()}`, `sendto` it to
`(self.broadcast, self.port)`, then `asyncio.sleep(1)`. -/
def advertiseIter (st : ServiceLoopState) (now : Int) : List AdvEvent :=
  [.sent (st.broadcast, st.port) (.obj [(timeKey, .num now)]), .slept 1]

/-- The advertise loop run against a finite prefix of clock readings (one
per iteration); the loop itself repeats unconditionally. -/
def advertiseTrace (st : ServiceLoopState) : List Int → List AdvEvent
  | [] => []
  | t :: ts => advertiseIter st t ++ advertiseTrace st ts

/-! ## `RoboProcess` (`ProcessManager.py` lines 8-39) -/

/-- Underlying OS process behaviour for one `stop()`: whether the process
exits within the 1-second `wait` after `terminate()`. -/
structure ProcBehavior where
  exitsWithinTimeout : Bool

/-- Actions `stop()` performs on the child process. -/
inductive ProcAction where
  | terminated
  | waited
  | killed
  deriving DecidableEq

/-- A `RoboProcess`: the command string and the `Popen` handle (`None`
until started). -/
structure RoboProcess where
  cmd : List Char
  popen : Option Nat
  deriving DecidableEq

/-- Which exceptions an `except TimeoutError` clause catches:
`TimeoutError` and its subclasses.  `subprocess.TimeoutExpired` derives
from `SubprocessError`, not from `TimeoutError`, so it does not match. -/
def catchesTimeoutError : PyError → Bool
  | .timeoutError => true
  | _ => false

/-- `RoboProcess.start` (lines 16-24): `if not self.popen`, spawn the
command; otherwise do nothing.  The second component records whether a
process was spawned. -/
def RoboProcess.start (p : RoboProcess) (newPid : Nat) : RoboProcess × Bool :=
  match p.popen with
  | none => ({ p with popen := some newPid }, true)
  | some _ => (p, false)

/-- `RoboProcess.stop` (lines 26-39): `if self.popen`, call `terminate()`
then `wait(timeout=1)` inside `try/except TimeoutError`.  If the process
does not exit in time, `wait` raises `subprocess.TimeoutExpired`; the
`except TimeoutError` clause matches only if `TimeoutExpired` were a
`TimeoutError` subclass (it is not), so the kill fallback is modelled as
guarded by that class test and the exception otherwise propagates. -/
def RoboProcess.stop (p : RoboProcess) (b : ProcBehavior) :
    Except PyError (RoboProcess × List ProcAction) :=
  match p.popen with
  | none => .ok (p, [])
  | some _ =>
    if b.exitsWithinTimeout then
      .ok ({ p with popen := none }, [.terminated, .waited])
    else
      if catchesTimeoutError .timeoutExpired then
        .ok ({ p with popen := none }, [.terminated, .waited, .killed, .waited])
      else .error .timeoutExpired

/-! ## Event loop shutdown (`BaseSocketLoop.close`, `sync.py` lines 46-52)

Modelled on asyncio's `BaseEventLoop` of the Python 3.6 era the code
targets: `stop()` merely sets the stopping flag, `Task.cancel()` marks
pending tasks, `run_forever()` raises `RuntimeError('Event loop is
closed')` when the loop is already closed and otherwise runs until stopped
(draining the cancelled tasks), and `close()` marks the loop closed. -/

/-- Observable event-loop state: closedness, the stopping flag, and the
pending tasks (one `Bool` per task: cancellation requested?). -/
structure EventLoop where
  closed : Bool
  stopping : Bool
  tasks : List Bool
  deriving DecidableEq

/-- `loop.stop()`. -/
def EventLoop.stopL (l : EventLoop) : EventLoop := { l with stopping := true }

/-- `for task in asyncio.Task.all_tasks(loop=...): task.cancel()`. -/
def EventLoop.cancelAll (l : EventLoop) : EventLoop :=
  { l with tasks := l.tasks.map fun _ => true }

/-- `loop.run_forever()`: raises `RuntimeError` on a closed loop;
otherwise runs the scheduler until the stop flag takes effect, by which
point the cancelled tasks have unwound and are dropped. -/
def EventLoop.runForever (l : EventLoop) : Except PyError EventLoop :=
  if l.closed then .error .runtimeError
  else .ok { l with tasks := [], stopping := false }

/-- `loop.close()`. -/
def EventLoop.closeL (l : EventLoop) : EventLoop := { l with closed := true }

/-- `BaseSocketLoop.close` (lines 46-52): `stop`, cancel every task, run
the loop to drain them, then close the loop. -/
def BaseSocketLoop.close (l : EventLoop) : Except PyError EventLoop :=
  match (l.stopL.cancelAll).runForever with
  | .error e => .error e
  | .ok l3 => .ok l3.closeL

/-! ## The Registry's connection handler (`ServerLoop.handler`,
`sync.py` lines 236-242, with `BaseSocketLoop.recv`, lines 76-79) -/

/-- Observable outcome of one handler task. -/
structure HandlerResult where
  connClosed : Bool
  recvCalls : Nat
  logged : List (Addr × Option Json)
  raised : Option PyError

/-- `ServerLoop.handler(conn, address)`: inside `with conn:` (which closes
the connection on every exit path), `await self.recv(conn)` — i.e. one
`sock_recv` followed by `decode` — then `if not data: return`, else log.
`io` is the outcome of the single `sock_recv`: bytes received (`b''` when
the peer closed) or a fatal OS error. -/
def ServerLoop.handler (address : Addr) (io : Except PyError (List Nat)) : HandlerResult :=
  match io with
  | .error e => { connClosed := true, recvCalls := 1, logged := [], raised := some e }
  | .ok packet =>
    match JSONSocketLoop.decode packet with
    | .error e => { connClosed := true, recvCalls := 1, logged := [], raised := some e }
    | .ok data =>
      if pyFalsyOpt data then
        { connClosed := true, recvCalls := 1, logged := [], raised := none }
      else
        { connClosed := true, recvCalls := 1, logged := [(address, data)], raised := none }

/-! ## Auxiliary measures for the parser proofs -/

mutual

/-- Fuel needed by `parseValue` on serializer output for a value. -/
def jfuel : Json → Nat
  | .null => 1
  | .bool _ => 1
  | .num _ => 1
  | .str _ => 1
  | .arr xs => 1 + jfuelElems xs
  | .obj kvs => 1 + jfuelMembers kvs

/-- Fuel needed by `parseElems` on a serialized element list. -/
def jfuelElems : List Json → Nat
  | [] => 0
  | x :: xs => 1 + jfuel x + jfuelElems xs

/-- Fuel needed by `parseMembers` on a serialized member list. -/
def jfuelMembers : List (List Char × Json) → Nat
  | [] => 0
  | (_, v) :: kvs => 1 + jfuel v + jfuelMembers kvs

end

/-- The characters after a serialized number must not extend the number
token (no further digit, fraction or exponent); all separators emitted by
the serializer satisfy this. -/
def numSafe : List Char → Bool
  | [] => true
  | c :: _ => !(isDigitCh c || c == '.' || c == 'e' || c == 'E')

end Robocluster

namespace Robocluster

/-! # Theorems -/

/-- **C2** (code bug): the claim says `decode` never raises, even on bytes
that are not valid UTF-8.  In the code, `json.loads` on such bytes raises
`UnicodeDecodeError`, which the `except json.JSONDecodeError` clause does
not catch, so `decode(b'\xff')` raises instead of returning the
`NO_MESSAGE` sentinel. -/
theorem decode_invalid_utf8_raises :
    JSONSocketLoop.decode [255] = .error .unicodeDecodeError := by rfl

/-- **C10** (confirmed): an orderly peer close makes `recv` read zero
bytes, and `decode(b'')` yields the same `NO_MESSAGE` sentinel (`None`)
as decode noise such as `b"{not json"`; the Registry's handler treats the
two cases identically. -/
theorem peer_close_indistinguishable_from_noise :
    JSONSocketLoop.decode [] = .ok none ∧
    JSONSocketLoop.decode [123, 110, 111, 116, 32, 106, 115, 111, 110] = .ok none ∧
    ServerLoop.handler (['p'], 9999) (.ok []) =
      ServerLoop.handler (['p'], 9999) (.ok [123, 110, 111, 116, 32, 106, 115, 111, 110]) :=
  ⟨rfl, rfl, rfl⟩

/-- **C4** (counterexample): `sendto` with a falsy message returns Python
`None`, not the operation's future, so its return value does *not* behave
like the normal completed result: the caller cannot await it.  The second
conjunct shows the normal case returning the future for contrast. -/
theorem sendto_empty_returns_none_counterexample :
    (sendtoCall true (.obj []) (.ok 5) initOp).1 = none ∧
    (sendtoCall true (.obj [(timeKey, .num 1)]) (.ok 5) initOp).1 = some () := by
  exact ⟨rfl, rfl⟩

/-- **C4** (amended): for every socket state, falsy message and syscall
behaviour, `sendto` returns immediately with no socket syscall, no write,
no callback registration and no future resolution — the only effect is
the future that was already created — but it returns `None` rather than
that future, so the result cannot be awaited as in the non-empty case. -/
theorem sendto_empty_noop (data : Json) (o : SysOutcome Nat) (st : OpState)
    (h : pyFalsy data = true) :
    sendtoCall true data o st = (none, { st with futureCreated := true }) := by
  simp [sendtoCall, h]

/-- Witness for `sendto_empty_noop` at the empty dict. -/
theorem sendto_empty_noop_witness :
    pyFalsy (Json.obj []) = true ∧
    sendtoCall true (Json.obj []) (SysOutcome.ok 5) initOp =
      (none, { initOp with futureCreated := true }) :=
  ⟨by decide, sendto_empty_noop (Json.obj []) (SysOutcome.ok 5) initOp (by decide)⟩

/-- **C5** (counterexample): `b"{}"` decodes to the empty dict — a valid
JSON value different from the `NO_MESSAGE` sentinel — yet the discover
loop's `if not data: continue` skips it, so it is not recorded. -/
theorem discover_skips_empty_dict_counterexample :
    JSONSocketLoop.decode [123, 125] = .ok (some (.obj [])) ∧
    some (Json.obj []) ≠ (none : Option Json) ∧
    discoverStep [] (some (.obj []), (['p'], 9999)) = [] :=
  ⟨rfl, by simp, rfl⟩

/-- Accumulator form of the discover loop. -/
theorem discoverLoop_eq_append_filter (rs : List (Option Json × Addr))
    (log : List (Option Json × Addr)) :
    discoverLoop log rs = log ++ rs.filter (fun r => !pyFalsyOpt r.1) := by
  induction rs generalizing log with
  | nil => simp [discoverLoop]
  | cons r rs ih =>
    simp only [discoverLoop, discoverStep, List.filter]
    cases h : pyFalsyOpt r.1 with
    | true => simp [h, ih]
    | false => simp [h, ih]

/-- **C5** (amended): the broadcast listener records an observation iff the
received message is *truthy*: the `NO_MESSAGE` sentinel and falsy decoded
values (such as `{}`, `0`, `""`, `[]`, `False`) are all ignored, and the
recorded observations are exactly the truthy ones in arrival order. -/
theorem discover_records_iff_truthy (recvs : List (Option Json × Addr)) :
    discoverLoop [] recvs = recvs.filter (fun r => !pyFalsyOpt r.1) := by
  simpa using discoverLoop_eq_append_filter recvs []

/-- **C7** (code bug): with a started process that ignores `terminate()`
for longer than the 1-second wait, `stop()` raises
`subprocess.TimeoutExpired` instead of killing the process, because the
`except TimeoutError` clause does not match `TimeoutExpired`.  The
idempotence halves of the claim do hold: a second `start` changes nothing,
and `stop` on a non-running process is a no-op. -/
theorem stop_timeout_raises :
    RoboProcess.stop { cmd := ['x'], popen := some 7 } { exitsWithinTimeout := false } =
      .error .timeoutExpired ∧
    RoboProcess.start { cmd := ['x'], popen := some 7 } 9 =
      ({ cmd := ['x'], popen := some 7 }, false) ∧
    RoboProcess.stop { cmd := ['x'], popen := none } { exitsWithinTimeout := true } =
      .ok ({ cmd := ['x'], popen := none }, []) := by
  refine ⟨?_, rfl, rfl⟩
  rfl

/-- **C8** (code bug): the first `close()` succeeds and leaves the event
loop closed with all tasks drained, but a second `close()` on the
already-closed loop raises `RuntimeError('Event loop is closed')` from
`run_forever`, so shutdown is not idempotent. -/
theorem close_second_call_raises :
    BaseSocketLoop.close { closed := false, stopping := false, tasks := [false, false] } =
      .ok { closed := true, stopping := false, tasks := [] } ∧
    BaseSocketLoop.close { closed := true, stopping := false, tasks := [] } =
      .error .runtimeError := by
  exact ⟨rfl, rfl⟩

/-- **C9** (confirmed): every handler task performs exactly one receive,
closes the connection on every exit path (normal, falsy message, or error
from the receive/decode), logs at most one observation and only a truthy
one; a peer that sends zero bytes produces no observation. -/
theorem handler_one_recv_closes_logs_nonempty (address : Addr)
    (io : Except PyError (List Nat)) :
    (ServerLoop.handler address io).connClosed = true ∧
    (ServerLoop.handler address io).recvCalls = 1 ∧
    (ServerLoop.handler address io).logged.length ≤ 1 ∧
    (ServerLoop.handler address io).logged.all (fun e => !pyFalsyOpt e.2) = true ∧
    ServerLoop.handler address (.ok []) =
      { connClosed := true, recvCalls := 1, logged := [], raised := none } := by
  refine ⟨?_, ?_, ?_, ?_, rfl⟩ <;>
  · unfold ServerLoop.handler
    rcases io with e | packet
    · simp
    · rcases h : JSONSocketLoop.decode packet with e | data
      · simp [h]
      · by_cases hf : pyFalsyOpt data = true <;> simp [h, hf]

/-- Once the reader callback is removed without being re-added, the event
loop never re-invokes `recvfrom`, whatever readiness events follow. -/
theorem recvfromRunAux_stuck (os : List (SysOutcome (List Nat × Addr))) (st : OpState)
    (h : st.readerRegistered = false) : recvfromRunAux st os = st := by
  cases os <;> simp [recvfromRunAux, h]

/-- While the reader callback is registered, each would-block re-invocation
first removes and then re-adds the single callback without resolving, and
the first successful attempt resolves the future exactly once and leaves
the callback removed. -/
theorem recvfromRunAux_resolves_once (n : Nat) (v : List Nat × Addr)
    (tail : List (SysOutcome (List Nat × Addr))) (st : OpState)
    (h : st.readerRegistered = true) :
    (recvfromRunAux st (List.replicate n .wouldBlock ++ .ok v :: tail)).resolutions =
      st.resolutions + 1 ∧
    (recvfromRunAux st (List.replicate n .wouldBlock ++ .ok v :: tail)).readerRegistered =
      false := by
  induction n generalizing st with
  | zero =>
    have hstep : recvfromCall false (.ok v) st =
        { st with readerRegistered := false, syscalls := st.syscalls + 1,
                  resolutions := st.resolutions + 1 } := rfl
    simp only [List.replicate_zero, List.nil_append, recvfromRunAux, h, if_true]
    rw [hstep, recvfromRunAux_stuck _ _ rfl]
    exact ⟨rfl, rfl⟩
  | succ n ih =>
    have hstep : recvfromCall false .wouldBlock st =
        { st with readerRegistered := true, syscalls := st.syscalls + 1 } := rfl
    simp only [List.replicate_succ, List.cons_append, recvfromRunAux, h, if_true]
    rw [hstep]
    exact ih _ rfl

/-- Once the writer callback is removed without being re-added, the event
loop never re-invokes `sendto`. -/
theorem sendtoRunAux_stuck (data : Json) (os : List (SysOutcome Nat)) (st : OpState)
    (h : st.writerRegistered = false) : sendtoRunAux data st os = st := by
  cases os <;> simp [sendtoRunAux, h]

/-- Write-direction analogue of `recvfromRunAux_resolves_once`, for a
truthy message. -/
theorem sendtoRunAux_resolves_once (n : Nat) (nb : Nat) (tail : List (SysOutcome Nat))
    (data : Json) (hdata : pyFalsy data = false) (st : OpState)
    (h : st.writerRegistered = true) :
    (sendtoRunAux data st (List.replicate n .wouldBlock ++ .ok nb :: tail)).resolutions =
      st.resolutions + 1 ∧
    (sendtoRunAux data st (List.replicate n .wouldBlock ++ .ok nb :: tail)).writerRegistered =
      false := by
  induction n generalizing st with
  | zero =>
    have hstep : (sendtoCall false data (.ok nb) st).2 =
        { st with writerRegistered := false, syscalls := st.syscalls + 1,
                  resolutions := st.resolutions + 1, writes := st.writes + 1 } := by
      simp [sendtoCall, hdata]
    simp only [List.replicate_zero, List.nil_append, sendtoRunAux, h, if_true]
    rw [hstep, sendtoRunAux_stuck _ _ _ rfl]
    exact ⟨rfl, rfl⟩
  | succ n ih =>
    have hstep : (sendtoCall false data .wouldBlock st).2 =
        { st with writerRegistered := true, syscalls := st.syscalls + 1 } := by
      simp [sendtoCall, hdata]
    simp only [List.replicate_succ, List.cons_append, sendtoRunAux, h, if_true]
    rw [hstep]
    exact ih _ rfl

/-- **C3** (confirmed): a `recvfrom`/`sendto` operation whose non-blocking
attempt reports "would block" `n` times before succeeding resolves its
future (`set_result`) exactly once, and after the success the readiness
callback is deregistered, so the later readiness events `tail1`/`tail2`
cause no further invocation or resolution; each re-invocation removes the
previous callback for the socket before re-attempting. -/
theorem recvfrom_sendto_single_resolution (n : Nat) (pkt : List Nat) (a : Addr)
    (nb : Nat) (tail1 : List (SysOutcome (List Nat × Addr)))
    (tail2 : List (SysOutcome Nat)) (data : Json) (hdata : pyFalsy data = false) :
    (recvfromRun (List.replicate n .wouldBlock ++ .ok (pkt, a) :: tail1)).resolutions = 1 ∧
    (recvfromRun (List.replicate n .wouldBlock ++ .ok (pkt, a) :: tail1)).readerRegistered =
      false ∧
    (sendtoRun data (List.replicate n .wouldBlock ++ .ok nb :: tail2)).resolutions = 1 ∧
    (sendtoRun data (List.replicate n .wouldBlock ++ .ok nb :: tail2)).writerRegistered =
      false := by
  cases n with
  | zero =>
    have h1 : recvfromCall true (.ok (pkt, a)) initOp =
        { initOp with futureCreated := true, syscalls := 1, resolutions := 1 } := rfl
    have h2 : (sendtoCall true data (.ok nb) initOp).2 =
        { initOp with futureCreated := true, syscalls := 1, resolutions := 1,
                      writes := 1 } := by
      simp [sendtoCall, hdata, initOp]
    simp only [List.replicate_zero, List.nil_append, recvfromRun, sendtoRun]
    rw [h1, h2, recvfromRunAux_stuck _ _ rfl, sendtoRunAux_stuck _ _ _ rfl]
    exact ⟨rfl, rfl, rfl, rfl⟩
  | succ m =>
    have h1 : recvfromCall true .wouldBlock initOp =
        { initOp with futureCreated := true, syscalls := 1, readerRegistered := true } := rfl
    have h2 : (sendtoCall true data .wouldBlock initOp).2 =
        { initOp with futureCreated := true, syscalls := 1, writerRegistered := true } := by
      simp [sendtoCall, hdata, initOp]
    simp only [List.replicate_succ, List.cons_append, recvfromRun, sendtoRun]
    rw [h1, h2]
    have hr := recvfromRunAux_resolves_once m (pkt, a) tail1
      { initOp with futureCreated := true, syscalls := 1, readerRegistered := true } rfl
    have hs := sendtoRunAux_resolves_once m nb tail2 data hdata
      { initOp with futureCreated := true, syscalls := 1, writerRegistered := true } rfl
    exact ⟨hr.1, hr.2, hs.1, hs.2⟩

/-- Witness for `recvfrom_sendto_single_resolution`: two would-block
rounds, then success, with the presence message as payload. -/
theorem recvfrom_sendto_single_resolution_witness :
    pyFalsy (Json.obj [(timeKey, .num 5)]) = false ∧
    ((recvfromRun (List.replicate 2 .wouldBlock ++
        .ok ([49], (['h'], 1)) :: [])).resolutions = 1 ∧
      (recvfromRun (List.replicate 2 .wouldBlock ++
        .ok ([49], (['h'], 1)) :: [])).readerRegistered = false ∧
      (sendtoRun (Json.obj [(timeKey, .num 5)])
        (List.replicate 2 .wouldBlock ++ .ok 9 :: [])).resolutions = 1 ∧
      (sendtoRun (Json.obj [(timeKey, .num 5)])
        (List.replicate 2 .wouldBlock ++ .ok 9 :: [])).writerRegistered = false) :=
  ⟨by decide,
   recvfrom_sendto_single_resolution 2 [49] (['h'], 1) 9 [] []
     (Json.obj [(timeKey, .num 5)]) (by decide)⟩

/-- Doubling both arguments doubles a bitwise or. -/
theorem two_mul_lor_two_mul (a b : Nat) : (2 * a) ||| (2 * b) = 2 * (a ||| b) := by
  apply Nat.eq_of_testBit_eq
  intro i
  cases i with
  | zero =>
    have h0 : ∀ x : Nat, 2 * x % 2 = 0 := fun x => by omega
    simp [Nat.testBit_lor, Nat.testBit_zero, h0]
  | succ j =>
    have h2 : ∀ x : Nat, 2 * x / 2 = x := fun x => by omega
    rw [Nat.testBit_lor]
    simp [Nat.testBit_succ, h2, Nat.testBit_lor]

/-- Doubling with a set low bit on the right. -/
theorem two_mul_lor_two_mul_add_one (a b : Nat) :
    (2 * a) ||| (2 * b + 1) = 2 * (a ||| b) + 1 := by
  apply Nat.eq_of_testBit_eq
  intro i
  cases i with
  | zero =>
    have h0 : ∀ x : Nat, 2 * x % 2 = 0 := fun x => by omega
    have h1 : ∀ x : Nat, (2 * x + 1) % 2 = 1 := fun x => by omega
    simp [Nat.testBit_lor, Nat.testBit_zero, h0, h1]
  | succ j =>
    have h2 : ∀ x : Nat, 2 * x / 2 = x := fun x => by omega
    have h3 : ∀ x : Nat, (2 * x + 1) / 2 = x := fun x => by omega
    rw [Nat.testBit_lor]
    simp [Nat.testBit_succ, h2, h3, Nat.testBit_lor]

/-- Bitwise or of values with disjoint bit ranges is addition: here `a`
has its low `k` bits clear and `m` fits in `k` bits. -/
theorem lor_eq_add_of_disjoint (k : Nat) :
    ∀ a m : Nat, a % 2 ^ k = 0 → m < 2 ^ k → a ||| m = a + m := by
  induction k with
  | zero =>
    intro a m _ hm
    have hm0 : m = 0 := by omega
    subst hm0
    simp [Nat.or_zero]
  | succ k ih =>
    intro a m ha hm
    have hp : 2 ^ (k + 1) = 2 * 2 ^ k := by rw [Nat.pow_succ]; ring
    obtain ⟨t, ht⟩ := Nat.dvd_of_mod_eq_zero ha
    have ha2 : a = 2 * (2 ^ k * t) := by rw [ht, hp]; ring
    have hmod : (2 ^ k * t) % 2 ^ k = 0 := Nat.mul_mod_right _ _
    rcases Nat.even_or_odd m with he | ho
    · obtain ⟨m2, hm2⟩ := he
      have hmm : m = 2 * m2 := by omega
      have hlt : m2 < 2 ^ k := by omega
      rw [ha2, hmm, two_mul_lor_two_mul, ih _ _ hmod hlt]
      ring
    · obtain ⟨m2, hm2⟩ := ho
      have hlt : m2 < 2 ^ k := by omega
      rw [ha2, hm2, two_mul_lor_two_mul_add_one, ih _ _ hmod hlt]
      ring

/-- The advertise loop is one send followed by one 1-second sleep per
clock reading, in order. -/
theorem advertiseTrace_flatMap (st : ServiceLoopState) (times : List Int) :
    advertiseTrace st times =
      times.flatMap (fun t =>
        [.sent (st.broadcast, st.port) (.obj [(timeKey, .num t)]), .slept 1]) := by
  induction times with
  | nil => rfl
  | cons t ts ih => simp [advertiseTrace, advertiseIter, ih]

/-- **C6** (confirmed): every advertiser iteration sends `{time: now}` to
`(subnet broadcast address, configured port)` and then sleeps a fixed 1
second, unconditionally; the broadcast address is the highest address of
the configured CIDR subnet, and for `10.0.0.0/24` it is `167772415`,
i.e. `10.0.0.255`. -/
theorem advertise_broadcast_cadence (c : SubnetCfg) (port : Nat) (times : List Int)
    (hp : c.prefixLen ≤ 32) (hn : c.netAddr < 2 ^ 32)
    (hz : c.netAddr % 2 ^ (32 - c.prefixLen) = 0) :
    (ServiceLoop.init c port).broadcast = c.netAddr + hostmask c.prefixLen ∧
    c.memberAddr (ServiceLoop.init c port).broadcast ∧
    (∀ a : Nat, c.memberAddr a → a ≤ (ServiceLoop.init c port).broadcast) ∧
    advertiseTrace (ServiceLoop.init c port) times =
      times.flatMap (fun t =>
        [.sent ((ServiceLoop.init c port).broadcast, port) (.obj [(timeKey, .num t)]),
         .slept 1]) ∧
    SubnetCfg.broadcastAddress { netAddr := 167772160, prefixLen := 24 } = 167772415 := by
  set k := 32 - c.prefixLen with hk
  set K := 2 ^ k with hKdef
  have hK : 0 < K := Nat.pos_pow_of_pos _ (by omega)
  have hmask : hostmask c.prefixLen < K := by
    unfold hostmask
    rw [← hk, ← hKdef]
    omega
  have hadd : (ServiceLoop.init c port).broadcast = c.netAddr + hostmask c.prefixLen := by
    simpa [ServiceLoop.init, SubnetCfg.broadcastAddress] using
      lor_eq_add_of_disjoint k c.netAddr (hostmask c.prefixLen) hz hmask
  obtain ⟨q, hq⟩ := Nat.dvd_of_mod_eq_zero hz
  have hsplit : 2 ^ 32 = 2 ^ c.prefixLen * K := by
    rw [hKdef, ← Nat.pow_add]
    congr 1
    omega
  have hqlt : q < 2 ^ c.prefixLen := by
    by_contra hge
    push_neg at hge
    have h1 : 2 ^ c.prefixLen * K ≤ q * K := Nat.mul_le_mul_right _ hge
    have h2 : q * K = K * q := Nat.mul_comm _ _
    omega
  have hdivb : (c.netAddr + hostmask c.prefixLen) / K = q := by
    have h1 : (K * q + (K - 1)) / K = q + (K - 1) / K := Nat.mul_add_div hK _ _
    have h2 : (K - 1) / K = 0 := Nat.div_eq_of_lt (by omega)
    have h3 : c.netAddr + hostmask c.prefixLen = K * q + (K - 1) := by
      unfold hostmask
      rw [← hk, ← hKdef]
      omega
    rw [h3, h1, h2]
    omega
  have hdivn : c.netAddr / K = q := by
    rw [hq]
    exact Nat.mul_div_right q hK
  refine ⟨hadd, ⟨?_, ?_⟩, ?_, advertiseTrace_flatMap _ _, by decide⟩
  · have h4 : K * (q + 1) ≤ K * 2 ^ c.prefixLen := Nat.mul_le_mul_left _ hqlt
    have hexp : K * (q + 1) = K * q + K := by ring
    have hxx : K * 2 ^ c.prefixLen = 2 ^ c.prefixLen * K := Nat.mul_comm _ _
    rw [hadd]
    unfold hostmask
    rw [← hk, ← hKdef]
    omega
  · rw [hadd]
    rw [Nat.shiftRight_eq_div_pow, Nat.shiftRight_eq_div_pow, ← hk, ← hKdef,
      hdivb, hdivn]
  · intro a ha
    unfold SubnetCfg.memberAddr at ha
    obtain ⟨ha32, haeq⟩ := ha
    rw [Nat.shiftRight_eq_div_pow, Nat.shiftRight_eq_div_pow, ← hk, ← hKdef, hdivn] at haeq
    have hdm := Nat.div_add_mod a K
    rw [haeq] at hdm
    have hml : a % K < K := Nat.mod_lt _ hK
    rw [hadd]
    unfold hostmask
    rw [← hk, ← hKdef]
    omega

/-- Witness for `advertise_broadcast_cadence`, at subnet `10.0.0.0/24`,
port `9999` and two clock readings. -/
theorem advertise_broadcast_cadence_witness :
    ((24 : Nat) ≤ 32 ∧ (167772160 : Nat) < 2 ^ 32 ∧
      (167772160 : Nat) % 2 ^ (32 - 24) = 0) ∧
    ((ServiceLoop.init ⟨167772160, 24⟩ 9999).broadcast = 167772160 + hostmask 24 ∧
      SubnetCfg.memberAddr ⟨167772160, 24⟩ (ServiceLoop.init ⟨167772160, 24⟩ 9999).broadcast ∧
      (∀ a : Nat, SubnetCfg.memberAddr ⟨167772160, 24⟩ a →
        a ≤ (ServiceLoop.init ⟨167772160, 24⟩ 9999).broadcast) ∧
      advertiseTrace (ServiceLoop.init ⟨167772160, 24⟩ 9999) [3, 4] =
        [3, 4].flatMap (fun t =>
          [.sent ((ServiceLoop.init ⟨167772160, 24⟩ 9999).broadcast, 9999)
            (.obj [(timeKey, .num t)]), .slept 1]) ∧
      SubnetCfg.broadcastAddress { netAddr := 167772160, prefixLen := 24 } = 167772415) :=
  ⟨⟨by decide, by decide, by decide⟩,
   advertise_broadcast_cadence ⟨167772160, 24⟩ 9999 [3, 4] (by decide) (by decide)
     (by decide)⟩

/-! ## Character helpers -/

/-- Characters with equal code points are equal. -/
theorem char_eq_of_toNat_eq {a b : Char} (h : a.toNat = b.toNat) : a = b := by
  have ha := Char.ofNat_toNat a
  have hb := Char.ofNat_toNat b
  rw [← ha, ← hb, h]

/-- Characters with distinct code points are distinct. -/
theorem char_ne_of_toNat_ne {a b : Char} (h : a.toNat ≠ b.toNat) : a ≠ b :=
  fun he => h (he ▸ rfl)

/-- A scalar value is never a UTF-16 surrogate. -/
theorem char_toNat_not_surrogate (c : Char) : c.toNat < 55296 ∨ 57344 ≤ c.toNat := by
  have hb : c.toNat = c.val.toNat := rfl
  rcases c.valid with h | h
  · left
    omega
  · right
    omega

/-- Scalar values are below `0x110000`. -/
theorem char_toNat_lt (c : Char) : c.toNat < 1114112 := by
  have hb : c.toNat = c.val.toNat := rfl
  rcases c.valid with h | h
  · omega
  · omega

/-! ## Decimal digits: `natDigits` and the number round trip -/

/-- Any sufficient fuel gives the same digit string. -/
theorem natDigitsF_irrel : ∀ f f2 n : Nat, n < f → n < f2 → natDigitsF f n = natDigitsF f2 n := by
  intro f
  induction f with
  | zero => intro f2 n h _; omega
  | succ f ih =>
    intro f2 n h1 h2
    cases f2 with
    | zero => omega
    | succ f2 =>
      simp only [natDigitsF]
      by_cases h10 : n < 10
      · simp [h10]
      · have hd : n / 10 < n := Nat.div_lt_self (by omega) (by omega)
        rw [if_neg h10, if_neg h10, ih f2 (n / 10) (by omega) (by omega)]

/-- Unfolding equation for `natDigits`. -/
theorem natDigits_eq (n : Nat) :
    natDigits n =
      if n < 10 then [digitChar n] else natDigits (n / 10) ++ [digitChar (n % 10)] := by
  unfold natDigits
  by_cases h10 : n < 10
  · simp [natDigitsF, h10]
  · have hd : n / 10 < n := Nat.div_lt_self (by omega) (by omega)
    simp only [natDigitsF, if_neg h10]
    rw [natDigitsF_irrel n (n / 10 + 1) (n / 10) (by omega) (by omega)]
    simp only [natDigitsF]

/-- Code point of a digit character. -/
theorem digitChar_toNat {k : Nat} (h : k < 10) : (digitChar k).toNat = 48 + k := by
  interval_cases k <;> rfl

/-- Digit characters pass the digit test. -/
theorem isDigitCh_digitChar {k : Nat} (h : k < 10) : isDigitCh (digitChar k) = true := by
  interval_cases k <;> rfl

/-- The digit string of `n` is nonempty, consists of digit characters, and
starts with a nonzero digit when `n ≥ 1`. -/
theorem natDigits_spec (n : Nat) :
    (∃ d l, natDigits n = d :: l ∧ isDigitCh d = true ∧ (1 ≤ n → d.toNat ≠ 48)) ∧
    (∀ c ∈ natDigits n, isDigitCh c = true) := by
  induction n using Nat.strong_induction_on with
  | _ n ih =>
    rw [natDigits_eq]
    by_cases h10 : n < 10
    · simp only [h10, if_true]
      refine ⟨⟨digitChar n, [], rfl, isDigitCh_digitChar h10, ?_⟩, ?_⟩
      · intro h1
        rw [digitChar_toNat h10]
        omega
      · intro c hc
        rw [List.mem_singleton] at hc
        subst hc
        exact isDigitCh_digitChar h10
    · have hd : n / 10 < n := Nat.div_lt_self (by omega) (by omega)
      obtain ⟨⟨d, l, hdl, hdig, hnz⟩, hall⟩ := ih (n / 10) hd
      simp only [h10, if_false]
      constructor
      · refine ⟨d, l ++ [digitChar (n % 10)], by rw [hdl]; simp, hdig, fun _ => hnz ?_⟩
        omega
      · intro c hc
        rw [List.mem_append] at hc
        rcases hc with hc | hc
        · exact hall c hc
        · rw [List.mem_singleton] at hc
          subst hc
          exact isDigitCh_digitChar (by omega)

/-- Folding the digit-accumulation step over the digit string of `n`
recovers `n` (shifted past the accumulator). -/
theorem foldl_natDigits (n : Nat) :
    ∀ acc : Nat,
      List.foldl (fun a c => a * 10 + (c.toNat - 48)) acc (natDigits n) =
        acc * 10 ^ (natDigits n).length + n := by
  induction n using Nat.strong_induction_on with
  | _ n ih =>
    intro acc
    rw [natDigits_eq]
    by_cases h10 : n < 10
    · simp [h10, digitChar_toNat h10]
    · have hd : n / 10 < n := Nat.div_lt_self (by omega) (by omega)
      simp only [h10, if_false, List.foldl_append, List.length_append, List.foldl_cons,
        List.foldl_nil, List.length_cons, List.length_nil]
      rw [ih (n / 10) hd acc, digitChar_toNat (by omega : n % 10 < 10)]
      have hmod : 48 + n % 10 - 48 = n % 10 := by omega
      rw [hmod]
      have key : ∀ L : Nat, (acc * 10 ^ L + n / 10) * 10 + n % 10 =
          acc * 10 ^ (L + (0 + 1)) + n := by
        intro L
        have hdm := Nat.div_add_mod n 10
        rw [Nat.pow_add]
        conv_rhs => rw [← hdm]
        ring
      exact key _

/-- `munchDigits` consumes exactly a leading block of digit characters. -/
theorem munchDigits_append (ds : List Char) :
    ∀ rest acc, (∀ c ∈ ds, isDigitCh c = true) →
      (rest = [] ∨ ∃ c t, rest = c :: t ∧ isDigitCh c = false) →
      munchDigits acc (ds ++ rest) =
        (List.foldl (fun a c => a * 10 + (c.toNat - 48)) acc ds, rest) := by
  induction ds with
  | nil =>
    intro rest acc _ hrest
    rcases hrest with rfl | ⟨c, t, rfl, hc⟩
    · rfl
    · simp [munchDigits, hc]
  | cons d ds ih =>
    intro rest acc hall hrest
    have hd : isDigitCh d = true := hall d (by simp)
    simp only [List.cons_append, munchDigits, hd, if_true, List.foldl_cons]
    exact ih rest _ (fun c hc => hall c (by simp [hc])) hrest

/-- The rest of the input after a serialized number neither extends the
digit run nor starts a fraction/exponent. -/
theorem numSafe_shape (rest : List Char) (h : numSafe rest = true) :
    (rest = [] ∨ ∃ c t, rest = c :: t ∧ isDigitCh c = false) ∧
    (rest = [] ∨ ∃ c t, rest = c :: t ∧ ¬(c = '.' ∨ c = 'e' ∨ c = 'E')) := by
  cases rest with
  | nil => exact ⟨Or.inl rfl, Or.inl rfl⟩
  | cons c t =>
    simp only [numSafe, Bool.not_eq_true'] at h
    simp only [Bool.or_eq_false_iff] at h
    obtain ⟨⟨⟨h1, h2⟩, h3⟩, h4⟩ := h
    refine ⟨Or.inr ⟨c, t, rfl, h1⟩, Or.inr ⟨c, t, rfl, ?_⟩⟩
    intro hc
    rcases hc with hc | hc | hc <;> subst hc
    · simp at h2
    · simp at h3
    · simp at h4

/-- `noFloat` passes when the remainder cannot extend into a float. -/
theorem noFloat_of_numSafe (n : Nat) (rest : List Char) (h : numSafe rest = true) :
    noFloat (n, rest) = some (n, rest) := by
  obtain ⟨_, hr⟩ := numSafe_shape rest h
  rcases hr with rfl | ⟨c, t, rfl, hc⟩
  · rfl
  · simp [noFloat, hc]

/-- Parsing the digit string of `n` yields `n`. -/
theorem parseUNum_natDigits (n : Nat) (rest : List Char) (h : numSafe rest = true) :
    parseUNum (natDigits n ++ rest) = some (n, rest) := by
  obtain ⟨⟨d, l, hdl, hdig, hnz⟩, hall⟩ := natDigits_spec n
  obtain ⟨hd1, _⟩ := numSafe_shape rest h
  rcases Nat.eq_zero_or_pos n with rfl | hpos
  · have h0 : natDigits 0 = ['0'] := rfl
    rw [h0]
    simp only [List.cons_append, List.nil_append, parseUNum, if_pos rfl]
    exact noFloat_of_numSafe 0 rest h
  · have hdigs := hall
    rw [hdl]
    have hne : ¬(d = '0') := by
      apply char_ne_of_toNat_ne
      have : ('0').toNat = 48 := rfl
      rw [this]
      exact hnz hpos
    simp only [List.cons_append, parseUNum, if_neg hne, hdig, if_true]
    have hld : ∀ c ∈ l, isDigitCh c = true := by
      intro c hc
      apply hall
      rw [hdl]
      simp [hc]
    rw [munchDigits_append l rest (d.toNat - 48) hld hd1]
    have hfold := foldl_natDigits n 0
    rw [hdl] at hfold
    simp only [List.foldl_cons] at hfold
    rw [Nat.zero_mul, Nat.zero_add] at hfold
    rw [hfold]
    simp only [Nat.zero_mul, Nat.zero_add]
    exact noFloat_of_numSafe n rest h

/-- Parsing a serialized integer yields it back. -/
theorem parseNumber_serInt (i : Int) (rest : List Char) (h : numSafe rest = true) :
    parseNumber (serInt i ++ rest) = some (.num i, rest) := by
  unfold serInt
  by_cases hneg : i < 0
  · simp only [hneg, if_true, List.cons_append, parseNumber, if_pos rfl]
    rw [parseUNum_natDigits i.natAbs rest h]
    show some (Json.num (-(i.natAbs : Int)), rest) = some (Json.num i, rest)
    have : (-(i.natAbs : Int)) = i := by omega
    rw [this]
  · simp only [hneg, if_false]
    obtain ⟨⟨d, l, hdl, hdig, _⟩, _⟩ := natDigits_spec i.toNat
    rw [hdl]
    have hdne : ¬(d = '-') := by
      apply char_ne_of_toNat_ne
      have h45 : ('-').toNat = 45 := rfl
      rw [h45]
      simp only [isDigitCh, decide_eq_true_eq] at hdig
      omega
    simp only [List.cons_append, parseNumber, if_neg hdne]
    rw [← List.cons_append, ← hdl, parseUNum_natDigits i.toNat rest h]
    show some (Json.num ((i.toNat : Int)), rest) = some (Json.num i, rest)
    have : ((i.toNat : Int)) = i := by omega
    rw [this]

/-! ## String escaping round trip -/

/-- Hex digit characters evaluate back to their value. -/
theorem hexVal_hexDigitChar {k : Nat} (h : k < 16) : hexVal (hexDigitChar k) = some k := by
  interval_cases k <;> rfl

/-- A `\uXXXX` group produced by `hex4` evaluates back to its value. -/
theorem hexVal4_hex4 (n : Nat) (h : n < 65536) :
    hexVal4 (hexDigitChar (n / 4096 % 16)) (hexDigitChar (n / 256 % 16))
      (hexDigitChar (n / 16 % 16)) (hexDigitChar (n % 16)) = some n := by
  unfold hexVal4
  rw [hexVal_hexDigitChar (by omega), hexVal_hexDigitChar (by omega),
    hexVal_hexDigitChar (by omega), hexVal_hexDigitChar (by omega)]
  show some (((n / 4096 % 16 * 16 + n / 256 % 16) * 16 + n / 16 % 16) * 16 + n % 16) = some n
  congr 1
  omega

/-- Residual behaviour of `stringChunk` after the `\u` prefix. -/
theorem stringChunk_u (a b c d : Char) (rest : List Char) :
    stringChunk ('\\' :: 'u' :: a :: b :: c :: d :: rest) =
      (match hexVal4 a b c d with
       | none => .fail
       | some n =>
         if 55296 ≤ n ∧ n < 56320 then
           match rest with
           | '\\' :: 'u' :: g1 :: g2 :: g3 :: g4 :: rest4 =>
             match hexVal4 g1 g2 g3 g4 with
             | none => .fail
             | some m =>
               if 56320 ≤ m ∧ m < 57344 then
                 StrStep.chr (Char.ofNat (65536 + (n - 55296) * 1024 + (m - 56320))) rest4
               else .fail
           | _ => .fail
         else if 56320 ≤ n ∧ n < 57344 then .fail
         else .chr (Char.ofNat n) rest) := rfl

/-- `stringChunk` after `\u` with a known hex value. -/
theorem stringChunk_u_val (a b c d : Char) (rest : List Char) (n : Nat)
    (hv : hexVal4 a b c d = some n) :
    stringChunk ('\\' :: 'u' :: a :: b :: c :: d :: rest) =
      (if 55296 ≤ n ∧ n < 56320 then
         match rest with
         | '\\' :: 'u' :: g1 :: g2 :: g3 :: g4 :: rest4 =>
           match hexVal4 g1 g2 g3 g4 with
           | none => .fail
           | some m =>
             if 56320 ≤ m ∧ m < 57344 then
               StrStep.chr (Char.ofNat (65536 + (n - 55296) * 1024 + (m - 56320))) rest4
             else .fail
         | _ => .fail
       else if 56320 ≤ n ∧ n < 57344 then .fail
       else .chr (Char.ofNat n) rest) := by
  rw [stringChunk_u, hv]

/-- Residual behaviour of `stringChunk` on two consecutive `\u` escapes. -/
theorem stringChunk_u_pair (a b c d g1 g2 g3 g4 : Char) (rest : List Char) :
    stringChunk
        ('\\' :: 'u' :: a :: b :: c :: d :: '\\' :: 'u' :: g1 :: g2 :: g3 :: g4 :: rest) =
      (match hexVal4 a b c d with
       | none => .fail
       | some n =>
         if 55296 ≤ n ∧ n < 56320 then
           match hexVal4 g1 g2 g3 g4 with
           | none => .fail
           | some m =>
             if 56320 ≤ m ∧ m < 57344 then
               StrStep.chr (Char.ofNat (65536 + (n - 55296) * 1024 + (m - 56320))) rest
             else .fail
         else if 56320 ≤ n ∧ n < 57344 then .fail
         else .chr (Char.ofNat n) ('\\' :: 'u' :: g1 :: g2 :: g3 :: g4 :: rest)) := rfl

/-- Two consecutive `\u` escapes with known hex values. -/
theorem stringChunk_u_pair_val (a b c d g1 g2 g3 g4 : Char) (rest : List Char)
    (n m : Nat) (hva : hexVal4 a b c d = some n) (hvg : hexVal4 g1 g2 g3 g4 = some m) :
    stringChunk
        ('\\' :: 'u' :: a :: b :: c :: d :: '\\' :: 'u' :: g1 :: g2 :: g3 :: g4 :: rest) =
      (if 55296 ≤ n ∧ n < 56320 then
         if 56320 ≤ m ∧ m < 57344 then
           StrStep.chr (Char.ofNat (65536 + (n - 55296) * 1024 + (m - 56320))) rest
         else .fail
       else if 56320 ≤ n ∧ n < 57344 then .fail
       else .chr (Char.ofNat n) ('\\' :: 'u' :: g1 :: g2 :: g3 :: g4 :: rest)) := by
  rw [stringChunk_u_pair, hva, hvg]

/-- An unescaped printable character is consumed as itself. -/
theorem stringChunk_printable (c : Char) (rest : List Char) (h1 : 32 ≤ c.toNat)
    (h2 : c.toNat ≤ 126) (h3 : c.toNat ≠ 34) (h4 : c.toNat ≠ 92) :
    stringChunk (c :: rest) = .chr c rest := by
  rw [← Char.ofNat_toNat c]
  generalize c.toNat = m at h1 h2 h3 h4
  interval_cases m <;> first | omega | rfl

/-- The scanner consumes one escaped character (as produced by
`escapeChar`) and yields exactly that character. -/
theorem stringChunk_escapeChar (c : Char) (rest : List Char) :
    stringChunk (escapeChar c ++ rest) = .chr c rest := by
  have hvch := char_toNat_not_surrogate c
  have hvlt := char_toNat_lt c
  by_cases e34 : c.toNat = 34
  · have hc : c = '"' := char_eq_of_toNat_eq (by rw [e34]; rfl)
    subst hc
    rfl
  by_cases e92 : c.toNat = 92
  · have hc : c = '\\' := char_eq_of_toNat_eq (by rw [e92]; rfl)
    subst hc
    rfl
  by_cases e8 : c.toNat = 8
  · have hc : c = Char.ofNat 8 := char_eq_of_toNat_eq (by rw [e8]; rfl)
    subst hc
    rfl
  by_cases e9 : c.toNat = 9
  · have hc : c = Char.ofNat 9 := char_eq_of_toNat_eq (by rw [e9]; rfl)
    subst hc
    rfl
  by_cases e10 : c.toNat = 10
  · have hc : c = Char.ofNat 10 := char_eq_of_toNat_eq (by rw [e10]; rfl)
    subst hc
    rfl
  by_cases e12 : c.toNat = 12
  · have hc : c = Char.ofNat 12 := char_eq_of_toNat_eq (by rw [e12]; rfl)
    subst hc
    rfl
  by_cases e13 : c.toNat = 13
  · have hc : c = Char.ofNat 13 := char_eq_of_toNat_eq (by rw [e13]; rfl)
    subst hc
    rfl
  by_cases hpr : 32 ≤ c.toNat ∧ c.toNat ≤ 126
  · have hesc : escapeChar c = [c] := by
      unfold escapeChar
      iterate 7 rw [if_neg (by omega)]
      rw [if_pos hpr]
    rw [hesc, List.cons_append, List.nil_append]
    exact stringChunk_printable c rest hpr.1 hpr.2 e34 e92
  by_cases hbmp : c.toNat < 65536
  · have hesc : escapeChar c = '\\' :: 'u' :: hex4 c.toNat := by
      unfold escapeChar
      iterate 7 rw [if_neg (by omega)]
      rw [if_neg hpr, if_pos hbmp]
    rw [hesc]
    simp only [hex4, List.cons_append, List.nil_append]
    rw [stringChunk_u_val _ _ _ _ _ _ (hexVal4_hex4 c.toNat hbmp),
      if_neg (by omega), if_neg (by omega), Char.ofNat_toNat]
  · have hesc : escapeChar c =
        ('\\' :: 'u' :: hex4 (55296 + (c.toNat - 65536) / 1024))
          ++ ('\\' :: 'u' :: hex4 (56320 + (c.toNat - 65536) % 1024)) := by
      unfold escapeChar
      iterate 7 rw [if_neg (by omega)]
      rw [if_neg hpr, if_neg hbmp]
    rw [hesc]
    simp only [hex4, List.cons_append, List.nil_append]
    rw [stringChunk_u_pair_val _ _ _ _ _ _ _ _ _ _ _
        (hexVal4_hex4 (55296 + (c.toNat - 65536) / 1024) (by omega))
        (hexVal4_hex4 (56320 + (c.toNat - 65536) % 1024) (by omega)),
      if_pos (by omega), if_pos (by omega)]
    have hval : 65536 + (55296 + (c.toNat - 65536) / 1024 - 55296) * 1024 +
        (56320 + (c.toNat - 65536) % 1024 - 56320) = c.toNat := by omega
    rw [hval, Char.ofNat_toNat]

/-- Escaping one character never produces the empty string. -/
theorem escapeChar_ne_nil (c : Char) : escapeChar c ≠ [] := by
  unfold escapeChar
  split_ifs <;> simp [hex4]

/-- Escaping cannot shrink a string. -/
theorem escapeString_length (s : List Char) : s.length ≤ (escapeString s).length := by
  induction s with
  | nil => simp [escapeString]
  | cons c cs ih =>
    have hne := escapeChar_ne_nil c
    have hpos : 1 ≤ (escapeChar c).length := by
      cases h : escapeChar c
      · exact absurd h hne
      · simp
    simp only [escapeString, List.length_append, List.length_cons]
    omega

/-- Scanning the escaped form of `s` up to the closing quote recovers `s`
and the remainder. -/
theorem parseStringBody_escapeString (s : List Char) :
    ∀ fuel rest, s.length < fuel →
      parseStringBody fuel (escapeString s ++ '"' :: rest) = some (s, rest) := by
  induction s with
  | nil =>
    intro fuel rest hf
    obtain ⟨f, rfl⟩ : ∃ f, fuel = f + 1 := ⟨fuel - 1, by omega⟩
    rfl
  | cons c cs ih =>
    intro fuel rest hf
    obtain ⟨f, rfl⟩ : ∃ f, fuel = f + 1 := ⟨fuel - 1, by omega⟩
    have hch := stringChunk_escapeChar c (escapeString cs ++ '"' :: rest)
    simp only [escapeString, List.append_assoc]
    simp only [parseStringBody, hch]
    rw [ih f rest (by simp at hf; omega)]

/-! ## Whitespace and dispatch plumbing for the value parser -/

/-- `skipWs` keeps a non-whitespace head. -/
theorem skipWs_cons_of (c : Char) (t : List Char)
    (h : ¬(c.toNat = 32 ∨ c.toNat = 9 ∨ c.toNat = 10 ∨ c.toNat = 13)) :
    skipWs (c :: t) = c :: t := by
  simp only [skipWs, if_neg h]

/-- `skipWs` drops a leading space. -/
theorem skipWs_space (t : List Char) : skipWs (' ' :: t) = skipWs t := rfl

/-- Every serialized value starts with one of the scanner's dispatch
characters. -/
theorem dumps_head (v : Json) : ∃ c l, dumps v = c :: l ∧
    (c = 'n' ∨ c = 't' ∨ c = 'f' ∨ c = '"' ∨ c = '[' ∨ c = '{' ∨ c = '-' ∨
      isDigitCh c = true) := by
  cases v with
  | null => exact ⟨'n', _, rfl, by tauto⟩
  | bool b =>
    cases b
    · exact ⟨'f', _, rfl, by tauto⟩
    · exact ⟨'t', _, rfl, by tauto⟩
  | num n =>
    show ∃ c l, serInt n = c :: l ∧ _
    unfold serInt
    by_cases hneg : n < 0
    · rw [if_pos hneg]
      exact ⟨'-', _, rfl, by tauto⟩
    · rw [if_neg hneg]
      obtain ⟨⟨d, l, hdl, hdig, _⟩, _⟩ := natDigits_spec n.toNat
      exact ⟨d, l, hdl, by tauto⟩
  | str s => exact ⟨'"', _, rfl, by tauto⟩
  | arr xs =>
    cases xs with
    | nil => exact ⟨'[', _, rfl, by tauto⟩
    | cons x xs =>
      exact ⟨'[', (dumps x ++ dumpsTail xs) ++ [']'], rfl, by tauto⟩
  | obj kvs =>
    cases kvs with
    | nil => exact ⟨'{', _, rfl, by tauto⟩
    | cons kv kvs =>
      exact ⟨'{', (dumpsMember kv ++ dumpsMemTail kvs) ++ ['}'], rfl, by tauto⟩

/-- Code-point facts about a dispatch character. -/
theorem dispatch_head_facts (c : Char)
    (h : c = 'n' ∨ c = 't' ∨ c = 'f' ∨ c = '"' ∨ c = '[' ∨ c = '{' ∨ c = '-' ∨
      isDigitCh c = true) :
    ¬(c.toNat = 32 ∨ c.toNat = 9 ∨ c.toNat = 10 ∨ c.toNat = 13) ∧
    c ≠ ']' ∧ c ≠ '}' := by
  have hd : c.toNat = 110 ∨ c.toNat = 116 ∨ c.toNat = 102 ∨ c.toNat = 34 ∨
      c.toNat = 91 ∨ c.toNat = 123 ∨ c.toNat = 45 ∨
      (48 ≤ c.toNat ∧ c.toNat ≤ 57) := by
    rcases h with rfl | rfl | rfl | rfl | rfl | rfl | rfl | h
    · exact Or.inl rfl
    · exact Or.inr (Or.inl rfl)
    · exact Or.inr (Or.inr (Or.inl rfl))
    · exact Or.inr (Or.inr (Or.inr (Or.inl rfl)))
    · exact Or.inr (Or.inr (Or.inr (Or.inr (Or.inl rfl))))
    · exact Or.inr (Or.inr (Or.inr (Or.inr (Or.inr (Or.inl rfl)))))
    · exact Or.inr (Or.inr (Or.inr (Or.inr (Or.inr (Or.inr (Or.inl rfl))))))
    · simp only [isDigitCh, decide_eq_true_eq] at h
      exact Or.inr (Or.inr (Or.inr (Or.inr (Or.inr (Or.inr (Or.inr h))))))
  refine ⟨by omega, ?_, ?_⟩
  · apply char_ne_of_toNat_ne
    have : (']').toNat = 93 := rfl
    omega
  · apply char_ne_of_toNat_ne
    have : ('}').toNat = 125 := rfl
    omega

/-- Skipping whitespace in front of a serialized value is the identity. -/
theorem skipWs_dumps (v : Json) (rest : List Char) :
    skipWs (dumps v ++ rest) = dumps v ++ rest := by
  obtain ⟨c, l, hd, hc⟩ := dumps_head v
  rw [hd, List.cons_append]
  exact skipWs_cons_of c _ (dispatch_head_facts c hc).1

/-- The value scanner ignores a leading space. -/
theorem parseValue_cons_space (f : Nat) (t : List Char) :
    parseValue f (' ' :: t) = parseValue f t := by
  cases f with
  | zero => rfl
  | succ f =>
    simp only [parseValue]
    rw [skipWs_space]

/-- The element loop ignores a leading space (its first action parses a
value). -/
theorem parseElems_cons_space (f : Nat) (t : List Char) :
    parseElems f (' ' :: t) = parseElems f t := by
  cases f with
  | zero => rfl
  | succ f =>
    simp only [parseElems]
    rw [parseValue_cons_space]

/-- The member loop ignores a leading space. -/
theorem parseMembers_cons_space (f : Nat) (t : List Char) :
    parseMembers f (' ' :: t) = parseMembers f t := by
  cases f with
  | zero => rfl
  | succ f =>
    simp only [parseMembers]
    rw [skipWs_space]

/-- Strong induction over the nested `Json` type. -/
theorem json_strong_ind (P : Json → Prop) (hnull : P .null) (hbool : ∀ b, P (.bool b))
    (hnum : ∀ n, P (.num n)) (hstr : ∀ s, P (.str s))
    (harr : ∀ xs, (∀ x ∈ xs, P x) → P (.arr xs))
    (hobj : ∀ kvs, (∀ kv ∈ kvs, P kv.2) → P (.obj kvs)) : ∀ v, P v
  | .null => hnull
  | .bool b => hbool b
  | .num n => hnum n
  | .str s => hstr s
  | .arr xs =>
    harr xs (fun x hx =>
      have : sizeOf x < sizeOf (Json.arr xs) := by
        have h1 := List.sizeOf_lt_of_mem hx
        simp only [Json.arr.sizeOf_spec]
        omega
      json_strong_ind P hnull hbool hnum hstr harr hobj x)
  | .obj kvs =>
    hobj kvs (fun kv hkv =>
      have : sizeOf kv.2 < 1 + sizeOf kvs := by
        have h1 := List.sizeOf_lt_of_mem hkv
        have h2 : sizeOf kv.2 < sizeOf kv := by
          obtain ⟨k, v⟩ := kv
          show sizeOf v < sizeOf (k, v)
          simp only [Prod.mk.sizeOf_spec]
          omega
        omega
      json_strong_ind P hnull hbool hnum hstr harr hobj kv.2)
termination_by v => sizeOf v

/-! ## Dispatch equations of the value scanner (residual forms after the
head character is fixed) -/

/-- Scanner on a double quote: delegate to the string scanner. -/
theorem parseValue_quote (f : Nat) (t : List Char) :
    parseValue (f + 1) ('"' :: t) =
      (match parseStringBody (t.length + 1) t with
       | some (str, r) => some (.str str, r)
       | none => none) := rfl

/-- Scanner on an opening bracket. -/
theorem parseValue_lbrack (f : Nat) (t : List Char) :
    parseValue (f + 1) ('[' :: t) =
      (match skipWs t with
       | ']' :: r => some (.arr [], r)
       | s2 =>
         match parseElems f s2 with
         | some (xs, r) => some (.arr xs, r)
         | none => none) := rfl

/-- Scanner on an opening brace. -/
theorem parseValue_lbrace (f : Nat) (t : List Char) :
    parseValue (f + 1) ('{' :: t) =
      (match skipWs t with
       | '}' :: r => some (.obj [], r)
       | s2 =>
         match parseMembers f s2 with
         | some (kvs, r) => some (.obj kvs, r)
         | none => none) := rfl

/-- Scanner on the `null` literal. -/
theorem parseValue_null (f : Nat) (rest : List Char) :
    parseValue (f + 1) ('n' :: 'u' :: 'l' :: 'l' :: rest) = some (.null, rest) := rfl

/-- Scanner on the `true` literal. -/
theorem parseValue_true (f : Nat) (rest : List Char) :
    parseValue (f + 1) ('t' :: 'r' :: 'u' :: 'e' :: rest) = some (.bool true, rest) := rfl

/-- Scanner on the `false` literal. -/
theorem parseValue_false (f : Nat) (rest : List Char) :
    parseValue (f + 1) ('f' :: 'a' :: 'l' :: 's' :: 'e' :: rest) =
      some (.bool false, rest) := rfl

/-- Scanner on a number token: falls through the keyword and bracket
dispatch to `parseNumber`. -/
theorem parseValue_number_dispatch (f : Nat) (c : Char) (t : List Char)
    (h : c = '-' ∨ isDigitCh c = true) :
    parseValue (f + 1) (c :: t) = parseNumber (c :: t) := by
  rcases h with rfl | h
  · rfl
  · rw [← Char.ofNat_toNat c]
    simp only [isDigitCh, decide_eq_true_eq] at h
    obtain ⟨h1, h2⟩ := h
    generalize c.toNat = m at h1 h2
    interval_cases m <;> rfl

/-- Member scanner on a double-quoted key. -/
theorem parseMembers_quote (f : Nat) (t : List Char) :
    parseMembers (f + 1) ('"' :: t) =
      (match parseStringBody (t.length + 1) t with
       | none => none
       | some (k, r1) =>
         match skipWs r1 with
         | ':' :: r2 =>
           match parseValue f r2 with
           | none => none
           | some (v, r3) =>
             match skipWs r3 with
             | ',' :: r4 =>
               match parseMembers f r4 with
               | some (kvs, r5) => some ((k, v) :: kvs, r5)
               | none => none
             | '}' :: r4 => some ([(k, v)], r4)
             | _ => none
         | _ => none) := rfl

/-- The fuel measure is bounded by the length of the serialized form. -/
theorem jfuel_le_dumps_length (v : Json) : jfuel v ≤ (dumps v).length := by
  induction v using json_strong_ind with
  | hnull => simp [jfuel, dumps]
  | hbool b => cases b <;> simp [jfuel, dumps]
  | hnum n =>
    obtain ⟨c, l, hd, _⟩ := dumps_head (.num n)
    rw [hd]
    simp [jfuel]
  | hstr s => simp [jfuel, dumps]
  | harr xs ih =>
    cases xs with
    | nil => simp [jfuel, jfuelElems, dumps]
    | cons x xs =>
      have haux : ∀ ys : List Json, (∀ y ∈ ys, jfuel y ≤ (dumps y).length) →
          jfuelElems ys ≤ (dumpsTail ys).length := by
        intro ys
        induction ys with
        | nil => intro _; simp [jfuelElems, dumpsTail]
        | cons y ys ihy =>
          intro h
          have h1 := h y (by simp)
          have h2 := ihy (fun z hz => h z (by simp [hz]))
          simp only [jfuelElems, dumpsTail, List.length_cons, List.length_append]
          omega
      have h1 := ih x (by simp)
      have h2 := haux xs (fun z hz => ih z (by simp [hz]))
      simp only [jfuel, jfuelElems, dumps, List.length_cons, List.length_append]
      simp at h1 h2 ⊢
      omega
  | hobj kvs ih =>
    cases kvs with
    | nil => simp [jfuel, jfuelMembers, dumps]
    | cons kv kvs =>
      have hm : ∀ ab : List Char × Json, jfuel ab.2 ≤ (dumps ab.2).length →
          jfuel ab.2 + 1 ≤ (dumpsMember ab).length := by
        intro ⟨a, b⟩ hb
        simp only [dumpsMember, List.length_cons, List.length_append]
        simp at hb ⊢
        omega
      have haux : ∀ ys : List (List Char × Json),
          (∀ y ∈ ys, jfuel y.2 ≤ (dumps y.2).length) →
          jfuelMembers ys ≤ (dumpsMemTail ys).length := by
        intro ys
        induction ys with
        | nil => intro _; simp [jfuelMembers, dumpsMemTail]
        | cons y ys ihy =>
          intro h
          have h1 := hm y (h y (by simp))
          have h2 := ihy (fun z hz => h z (by simp [hz]))
          obtain ⟨a, b⟩ := y
          simp only [jfuelMembers, dumpsMemTail, List.length_cons, List.length_append]
          simp at h1 h2 ⊢
          omega
      have h1 := hm kv (ih kv (by simp))
      have h2 := haux kvs (fun z hz => ih z (by simp [hz]))
      obtain ⟨a, b⟩ := kv
      simp only [jfuel, jfuelMembers, dumps, List.length_cons, List.length_append]
      simp at h1 h2 ⊢
      omega

/-- Every fuel measure is positive. -/
theorem jfuel_pos (v : Json) : 1 ≤ jfuel v := by
  cases v <;> simp [jfuel]

/-- Round trip of the element loop on a serialized nonempty element list,
given the round trip of each element. -/
theorem parseElems_dumps : ∀ (xs : List Json) (x : Json) (fuel : Nat) (rest : List Char),
    (∀ y ∈ x :: xs, ∀ fl (rs : List Char), jfuel y ≤ fl → numSafe rs = true →
      parseValue fl (dumps y ++ rs) = some (y, rs)) →
    jfuelElems (x :: xs) ≤ fuel + 1 →
    parseElems (fuel + 1) (dumps x ++ (dumpsTail xs ++ ']' :: rest)) =
      some (x :: xs, rest) := by
  intro xs
  induction xs with
  | nil =>
    intro x fuel rest hIH hfl
    have hjx : jfuel x ≤ fuel := by
      simp [jfuelElems] at hfl
      omega
    simp only [parseElems, dumpsTail, List.nil_append]
    rw [hIH x (by simp) fuel (']' :: rest) hjx rfl]
    dsimp only
    rw [skipWs_cons_of _ _ (by decide)]
    rfl
  | cons y ys ih =>
    intro x fuel rest hIH hfl
    have hjy : 1 ≤ jfuel y := jfuel_pos y
    have hjx : jfuel x ≤ fuel := by
      simp only [jfuelElems] at hfl
      omega
    obtain ⟨f2, rfl⟩ : ∃ f2, fuel = f2 + 1 := by
      refine ⟨fuel - 1, ?_⟩
      simp only [jfuelElems] at hfl
      omega
    simp only [parseElems, dumpsTail, List.cons_append, List.append_assoc]
    rw [hIH x (by simp) (f2 + 1)
        (',' :: ' ' :: (dumps y ++ (dumpsTail ys ++ ']' :: rest))) hjx rfl]
    dsimp only
    rw [skipWs_cons_of _ _ (by decide)]
    show (match parseElems (f2 + 1) (' ' :: (dumps y ++ (dumpsTail ys ++ ']' :: rest))) with
          | some (vs, r3) => some (x :: vs, r3)
          | none => none) = some (x :: y :: ys, rest)
    rw [parseElems_cons_space,
      ih y f2 rest (fun z hz => hIH z (by simp at hz ⊢; tauto))
        (by simp only [jfuelElems] at hfl ⊢; omega)]

/-- Round trip of the member loop on a serialized nonempty member list. -/
theorem parseMembers_dumps : ∀ (kvs : List (List Char × Json)) (k : List Char) (v : Json)
    (fuel : Nat) (rest : List Char),
    (∀ y ∈ (k, v) :: kvs, ∀ fl (rs : List Char), jfuel y.2 ≤ fl → numSafe rs = true →
      parseValue fl (dumps y.2 ++ rs) = some (y.2, rs)) →
    jfuelMembers ((k, v) :: kvs) ≤ fuel + 1 →
    parseMembers (fuel + 1) (dumpsMember (k, v) ++ (dumpsMemTail kvs ++ '}' :: rest)) =
      some ((k, v) :: kvs, rest) := by
  intro kvs
  induction kvs with
  | nil =>
    intro k v fuel rest hIH hfl
    have hjv : jfuel v ≤ fuel := by
      simp [jfuelMembers] at hfl
      omega
    simp only [dumpsMember, dumpsMemTail, List.nil_append, List.cons_append,
      List.append_assoc]
    rw [parseMembers_quote]
    rw [parseStringBody_escapeString k _ (':' :: ' ' :: (dumps v ++ '}' :: rest))
      (by have := escapeString_length k
          simp only [List.length_append, List.length_cons]
          omega)]
    dsimp only
    rw [skipWs_cons_of _ _ (by decide)]
    simp only []
    rw [parseValue_cons_space, hIH (k, v) (by simp) fuel ('}' :: rest) hjv rfl]
    dsimp only
    rw [skipWs_cons_of _ _ (by decide)]
    rfl
  | cons kv2 kvs2 ih =>
    intro k v fuel rest hIH hfl
    obtain ⟨a2, b2⟩ := kv2
    have hjb : 1 ≤ jfuel b2 := jfuel_pos b2
    have hjv : jfuel v ≤ fuel := by
      simp only [jfuelMembers] at hfl
      omega
    obtain ⟨f2, rfl⟩ : ∃ f2, fuel = f2 + 1 := by
      refine ⟨fuel - 1, ?_⟩
      simp only [jfuelMembers] at hfl
      omega
    simp only [dumpsMember, dumpsMemTail, List.cons_append, List.append_assoc]
    rw [parseMembers_quote]
    rw [parseStringBody_escapeString k _
      (':' :: ' ' :: (dumps v ++ ',' :: ' ' ::
        ('"' :: (escapeString a2 ++ '"' :: ':' :: ' ' ::
          (dumps b2 ++ (dumpsMemTail kvs2 ++ '}' :: rest))))))
      (by have := escapeString_length k
          simp only [List.length_append, List.length_cons]
          omega)]
    dsimp only
    rw [skipWs_cons_of _ _ (by decide)]
    show (match parseValue (f2 + 1) (' ' :: (dumps v ++ ',' :: ' ' ::
            ('"' :: (escapeString a2 ++ '"' :: ':' :: ' ' ::
              (dumps b2 ++ (dumpsMemTail kvs2 ++ '}' :: rest)))))) with
          | none => none
          | some (v2, r3) =>
            match skipWs r3 with
            | ',' :: r4 =>
              match parseMembers (f2 + 1) r4 with
              | some (kvs3, r5) => some ((k, v2) :: kvs3, r5)
              | none => none
            | '}' :: r4 => some ([(k, v2)], r4)
            | _ => none) = some ((k, v) :: (a2, b2) :: kvs2, rest)
    rw [parseValue_cons_space, hIH (k, v) (by simp) (f2 + 1)
      (',' :: ' ' :: ('"' :: (escapeString a2 ++ '"' :: ':' :: ' ' ::
        (dumps b2 ++ (dumpsMemTail kvs2 ++ '}' :: rest))))) hjv rfl]
    dsimp only
    rw [skipWs_cons_of _ _ (by decide)]
    show (match parseMembers (f2 + 1) (' ' ::
            ('"' :: (escapeString a2 ++ '"' :: ':' :: ' ' ::
              (dumps b2 ++ (dumpsMemTail kvs2 ++ '}' :: rest))))) with
          | some (kvs3, r5) => some ((k, v) :: kvs3, r5)
          | none => none) = some ((k, v) :: (a2, b2) :: kvs2, rest)
    rw [parseMembers_cons_space]
    have hrec := ih a2 b2 f2 rest (fun z hz => hIH z (by simp at hz ⊢; tauto))
      (by simp only [jfuelMembers] at hfl ⊢; omega)
    simp only [dumpsMember, List.cons_append, List.append_assoc] at hrec
    rw [hrec]

/-- Scanning the serialized form of any value, with enough fuel and a
`numSafe` remainder, recovers exactly that value. -/
theorem parse_dumps (v : Json) : ∀ fuel (rest : List Char), jfuel v ≤ fuel →
    numSafe rest = true → parseValue fuel (dumps v ++ rest) = some (v, rest) := by
  induction v using json_strong_ind with
  | hnull =>
    intro fuel rest hf _
    obtain ⟨f, rfl⟩ : ∃ f, fuel = f + 1 := ⟨fuel - 1, by simp [jfuel] at hf; omega⟩
    have hds : dumps Json.null = ['n', 'u', 'l', 'l'] := by simp [dumps]
    rw [hds]
    exact parseValue_null f rest
  | hbool b =>
    intro fuel rest hf _
    obtain ⟨f, rfl⟩ : ∃ f, fuel = f + 1 := ⟨fuel - 1, by simp [jfuel] at hf; omega⟩
    cases b
    · have hds : dumps (Json.bool false) = ['f', 'a', 'l', 's', 'e'] := by simp [dumps]
      rw [hds]
      exact parseValue_false f rest
    · have hds : dumps (Json.bool true) = ['t', 'r', 'u', 'e'] := by simp [dumps]
      rw [hds]
      exact parseValue_true f rest
  | hnum n =>
    intro fuel rest hf hns
    obtain ⟨f, rfl⟩ : ∃ f, fuel = f + 1 := ⟨fuel - 1, by simp [jfuel] at hf; omega⟩
    have hd : ∃ d l, serInt n = d :: l ∧ (d = '-' ∨ isDigitCh d = true) := by
      unfold serInt
      by_cases hneg : n < 0
      · rw [if_pos hneg]
        exact ⟨'-', _, rfl, Or.inl rfl⟩
      · rw [if_neg hneg]
        obtain ⟨⟨d, l, hdl, hdig, _⟩, _⟩ := natDigits_spec n.toNat
        exact ⟨d, l, hdl, Or.inr hdig⟩
    obtain ⟨d, l, hdl, hdisp⟩ := hd
    have hds : dumps (Json.num n) = serInt n := by simp [dumps]
    rw [hds, hdl, List.cons_append, parseValue_number_dispatch f d _ hdisp,
      ← List.cons_append, ← hdl, parseNumber_serInt n rest hns]
  | hstr s =>
    intro fuel rest hf _
    obtain ⟨f, rfl⟩ : ∃ f, fuel = f + 1 := ⟨fuel - 1, by simp [jfuel] at hf; omega⟩
    have hds : dumps (Json.str s) = '"' :: escapeString s ++ ['"'] := by simp [dumps]
    rw [hds]
    simp only [List.cons_append, List.append_assoc, List.singleton_append,
      List.nil_append]
    rw [parseValue_quote]
    rw [parseStringBody_escapeString s _ rest
      (by have := escapeString_length s
          simp only [List.length_append, List.length_cons]
          omega)]
  | harr xs ih =>
    intro fuel rest hf hns
    cases xs with
    | nil =>
      obtain ⟨f, rfl⟩ : ∃ f, fuel = f + 1 := ⟨fuel - 1, by simp [jfuel, jfuelElems] at hf; omega⟩
      have hds : dumps (Json.arr []) = ['[', ']'] := by simp [dumps]
      rw [hds]
      simp only [List.cons_append, List.nil_append]
      rw [parseValue_lbrack, skipWs_cons_of _ _ (by decide)]
      rfl
    | cons x xs =>
      have hje : 1 ≤ jfuelElems (x :: xs) := by
        have := jfuel_pos x
        simp only [jfuelElems]
        omega
      have hjf : 1 + jfuelElems (x :: xs) ≤ fuel := by
        simpa [jfuel] using hf
      obtain ⟨f, rfl⟩ : ∃ f, fuel = f + 1 := ⟨fuel - 1, by omega⟩
      obtain ⟨g, rfl⟩ : ∃ g, f = g + 1 := ⟨f - 1, by omega⟩
      have hds : dumps (Json.arr (x :: xs)) =
          '[' :: (dumps x ++ dumpsTail xs) ++ [']'] := by simp [dumps]
      rw [hds]
      simp only [List.cons_append, List.append_assoc, List.singleton_append,
      List.nil_append]
      rw [parseValue_lbrack, skipWs_dumps]
      obtain ⟨c, l, hcl, hcd⟩ := dumps_head x
      have hne := (dispatch_head_facts c hcd).2.1
      rw [hcl, List.cons_append]
      split
      · next r heq =>
        injection heq with h1 _
        exact absurd h1 hne
      · rw [← List.cons_append, ← hcl,
          parseElems_dumps xs x g rest ih (by omega)]
  | hobj kvs ih =>
    intro fuel rest hf hns
    cases kvs with
    | nil =>
      obtain ⟨f, rfl⟩ : ∃ f, fuel = f + 1 :=
        ⟨fuel - 1, by simp [jfuel, jfuelMembers] at hf; omega⟩
      have hds : dumps (Json.obj []) = ['{', '}'] := by simp [dumps]
      rw [hds]
      simp only [List.cons_append, List.nil_append]
      rw [parseValue_lbrace, skipWs_cons_of _ _ (by decide)]
      rfl
    | cons kv kvs =>
      obtain ⟨k, v⟩ := kv
      have hje : 1 ≤ jfuelMembers ((k, v) :: kvs) := by
        have := jfuel_pos v
        simp only [jfuelMembers]
        omega
      have hjf : 1 + jfuelMembers ((k, v) :: kvs) ≤ fuel := by
        simpa [jfuel] using hf
      obtain ⟨f, rfl⟩ : ∃ f, fuel = f + 1 := ⟨fuel - 1, by omega⟩
      obtain ⟨g, rfl⟩ : ∃ g, f = g + 1 := ⟨f - 1, by omega⟩
      have hds : dumps (Json.obj ((k, v) :: kvs)) =
          '{' :: (dumpsMember (k, v) ++ dumpsMemTail kvs) ++ ['}'] := by simp [dumps]
      rw [hds]
      simp only [List.cons_append, List.append_assoc, List.singleton_append,
      List.nil_append]
      rw [parseValue_lbrace]
      have hqhead : ∃ l2, dumpsMember (k, v) = '"' :: l2 := by
        simp only [dumpsMember]
        exact ⟨_, rfl⟩
      obtain ⟨l2, hl2⟩ := hqhead
      rw [hl2, List.cons_append, skipWs_cons_of _ _ (by decide)]
      split
      · next r heq =>
        injection heq with h1 _
        exact absurd h1 (by decide)
      · rw [← List.cons_append, ← hl2,
          parseMembers_dumps kvs k v g rest ih (by omega)]

/-- `json.loads` inverts `json.dumps` at the text level. -/
theorem pyJsonLoads_dumps (v : Json) : pyJsonLoads (dumps v) = some v := by
  unfold pyJsonLoads
  have h := parse_dumps v ((dumps v).length + 1) []
    (by have := jfuel_le_dumps_length v; omega) rfl
  rw [List.append_nil] at h
  rw [h]
  rfl

/-- Boolean-checked ASCII bound for a character list. -/
theorem ascii_of_all (l : List Char) (h : l.all (fun d => decide (d.toNat < 128)) = true) :
    ∀ d ∈ l, d.toNat < 128 := by
  intro d hd
  have := List.all_eq_true.mp h d hd
  simpa using this

/-- Hex digit characters are ASCII. -/
theorem hexDigitChar_ascii {k : Nat} (h : k < 16) : (hexDigitChar k).toNat < 128 := by
  interval_cases k <;> decide

/-- The four characters of a `hex4` group are ASCII. -/
theorem hex4_ascii (n : Nat) : ∀ d ∈ hex4 n, d.toNat < 128 := by
  intro d hd
  simp only [hex4, List.mem_cons] at hd
  rcases hd with rfl | rfl | rfl | rfl | h0
  · exact hexDigitChar_ascii (by omega)
  · exact hexDigitChar_ascii (by omega)
  · exact hexDigitChar_ascii (by omega)
  · exact hexDigitChar_ascii (by omega)
  · exact absurd h0 (List.not_mem_nil d)

/-- Every character emitted by `escapeChar` is ASCII (that is the point of
`ensure_ascii=True`). -/
theorem escapeChar_ascii (c : Char) : ∀ d ∈ escapeChar c, d.toNat < 128 := by
  unfold escapeChar
  split_ifs with h1 h2 h3 h4 h5 h6 h7 h8 h9
  · exact ascii_of_all _ (by decide)
  · exact ascii_of_all _ (by decide)
  · exact ascii_of_all _ (by decide)
  · exact ascii_of_all _ (by decide)
  · exact ascii_of_all _ (by decide)
  · exact ascii_of_all _ (by decide)
  · exact ascii_of_all _ (by decide)
  · intro d hd
    rw [List.mem_singleton] at hd
    subst hd
    omega
  · exact List.forall_mem_cons.mpr ⟨by decide,
      List.forall_mem_cons.mpr ⟨by decide, hex4_ascii c.toNat⟩⟩
  · refine List.forall_mem_append.mpr ⟨?_, ?_⟩ <;>
      exact List.forall_mem_cons.mpr ⟨by decide,
        List.forall_mem_cons.mpr ⟨by decide, hex4_ascii _⟩⟩

/-- Escaped strings are ASCII. -/
theorem escapeString_ascii (s : List Char) : ∀ d ∈ escapeString s, d.toNat < 128 := by
  induction s with
  | nil => intro d hd; simp [escapeString] at hd
  | cons c cs ih =>
    simp only [escapeString]
    exact List.forall_mem_append.mpr ⟨escapeChar_ascii c, ih⟩

/-- Serialized integers are ASCII. -/
theorem serInt_ascii (n : Int) : ∀ d ∈ serInt n, d.toNat < 128 := by
  intro d hd
  unfold serInt at hd
  split_ifs at hd
  · rcases List.mem_cons.mp hd with rfl | hd
    · decide
    · have h2 := (natDigits_spec n.natAbs).2 d hd
      simp only [isDigitCh, decide_eq_true_eq] at h2
      omega
  · have h2 := (natDigits_spec n.toNat).2 d hd
    simp only [isDigitCh, decide_eq_true_eq] at h2
    omega

/-- Serializer output is pure ASCII. -/
theorem dumps_ascii (v : Json) : ∀ d ∈ dumps v, d.toNat < 128 := by
  induction v using json_strong_ind with
  | hnull =>
    have hds : dumps Json.null = ['n', 'u', 'l', 'l'] := by simp [dumps]
    rw [hds]
    exact ascii_of_all _ (by decide)
  | hbool b =>
    cases b
    · have hds : dumps (Json.bool false) = ['f', 'a', 'l', 's', 'e'] := by simp [dumps]
      rw [hds]
      exact ascii_of_all _ (by decide)
    · have hds : dumps (Json.bool true) = ['t', 'r', 'u', 'e'] := by simp [dumps]
      rw [hds]
      exact ascii_of_all _ (by decide)
  | hnum n =>
    have hds : dumps (Json.num n) = serInt n := by simp [dumps]
    rw [hds]
    exact serInt_ascii n
  | hstr s =>
    have hds : dumps (Json.str s) = '"' :: escapeString s ++ ['"'] := by simp [dumps]
    rw [hds]
    exact List.forall_mem_cons.mpr ⟨by decide,
      List.forall_mem_append.mpr ⟨escapeString_ascii s, ascii_of_all _ (by decide)⟩⟩
  | harr xs ih =>
    have haux : ∀ ys : List Json, (∀ y ∈ ys, ∀ d ∈ dumps y, d.toNat < 128) →
        ∀ d ∈ dumpsTail ys, d.toNat < 128 := by
      intro ys
      induction ys with
      | nil => intro _ d hd; simp [dumpsTail] at hd
      | cons y ys ihy =>
        intro h
        simp only [dumpsTail]
        exact List.forall_mem_cons.mpr ⟨by decide, List.forall_mem_cons.mpr ⟨by decide,
          List.forall_mem_append.mpr ⟨h y (by simp),
            ihy (fun z hz => h z (by simp [hz]))⟩⟩⟩
    cases xs with
    | nil =>
      have hds : dumps (Json.arr []) = ['[', ']'] := by simp [dumps]
      rw [hds]
      exact ascii_of_all _ (by decide)
    | cons x xs =>
      have hds : dumps (Json.arr (x :: xs)) =
          '[' :: (dumps x ++ dumpsTail xs) ++ [']'] := by simp [dumps]
      rw [hds]
      exact List.forall_mem_cons.mpr ⟨by decide, List.forall_mem_append.mpr
        ⟨List.forall_mem_append.mpr ⟨ih x (by simp),
          haux xs (fun z hz => ih z (by simp [hz]))⟩, ascii_of_all _ (by decide)⟩⟩
  | hobj kvs ih =>
    have hmem : ∀ ab : List Char × Json, (∀ d ∈ dumps ab.2, d.toNat < 128) →
        ∀ d ∈ dumpsMember ab, d.toNat < 128 := by
      intro ⟨a, b⟩ hb
      simp only [dumpsMember]
      exact List.forall_mem_cons.mpr ⟨by decide, List.forall_mem_append.mpr
        ⟨escapeString_ascii a, List.forall_mem_cons.mpr ⟨by decide,
          List.forall_mem_cons.mpr ⟨by decide,
            List.forall_mem_cons.mpr ⟨by decide, hb⟩⟩⟩⟩⟩
    have haux : ∀ ys : List (List Char × Json),
        (∀ y ∈ ys, ∀ d ∈ dumps y.2, d.toNat < 128) →
        ∀ d ∈ dumpsMemTail ys, d.toNat < 128 := by
      intro ys
      induction ys with
      | nil => intro _ d hd; simp [dumpsMemTail] at hd
      | cons y ys ihy =>
        intro h
        simp only [dumpsMemTail]
        exact List.forall_mem_cons.mpr ⟨by decide, List.forall_mem_cons.mpr ⟨by decide,
          List.forall_mem_append.mpr ⟨hmem y (h y (by simp)),
            ihy (fun z hz => h z (by simp [hz]))⟩⟩⟩
    cases kvs with
    | nil =>
      have hds : dumps (Json.obj []) = ['{', '}'] := by simp [dumps]
      rw [hds]
      exact ascii_of_all _ (by decide)
    | cons kv kvs =>
      have hds : dumps (Json.obj (kv :: kvs)) =
          '{' :: (dumpsMember kv ++ dumpsMemTail kvs) ++ ['}'] := by simp [dumps]
      rw [hds]
      exact List.forall_mem_cons.mpr ⟨by decide, List.forall_mem_append.mpr
        ⟨List.forall_mem_append.mpr ⟨hmem kv (ih kv (by simp)),
          haux kvs (fun z hz => ih z (by simp [hz]))⟩, ascii_of_all _ (by decide)⟩⟩

/-- UTF-8 encoding then decoding is the identity on ASCII text (serializer
output is always ASCII). -/
theorem utf8DecodeLoop_ascii : ∀ (s : List Char) (f : Nat), (∀ c ∈ s, c.toNat < 128) →
    s.length < f → utf8DecodeLoop f (strEncodeUtf8 s) = some s := by
  intro s
  induction s with
  | nil =>
    intro f _ _
    cases f <;> rfl
  | cons c cs ih =>
    intro f h hf
    obtain ⟨f2, rfl⟩ : ∃ f2, f = f2 + 1 := ⟨f - 1, by omega⟩
    have hc : c.toNat < 128 := h c (by simp)
    have henc : utf8EncodeChar c = [c.toNat] := by
      unfold utf8EncodeChar
      rw [if_pos hc]
    have hch : utf8Chunk c.toNat (strEncodeUtf8 cs) = some (c, strEncodeUtf8 cs) := by
      unfold utf8Chunk
      rw [if_pos hc, Char.ofNat_toNat]
    simp only [strEncodeUtf8, henc, List.cons_append, List.nil_append]
    simp only [utf8DecodeLoop, hch]
    rw [ih f2 (fun z hz => h z (by simp [hz])) (by simp at hf; omega)]

/-- UTF-8 decoding inverts encoding on ASCII text. -/
theorem utf8_roundtrip_ascii : ∀ s : List Char, (∀ c ∈ s, c.toNat < 128) →
    utf8DecodeBytes (strEncodeUtf8 s) = some s := by
  intro s h
  unfold utf8DecodeBytes
  exact utf8DecodeLoop_ascii s _ h (by
    have : s.length ≤ (strEncodeUtf8 s).length := by
      clear h
      induction s with
      | nil => simp [strEncodeUtf8]
      | cons c cs ih =>
        have hpos : 1 ≤ (utf8EncodeChar c).length := by
          unfold utf8EncodeChar
          split_ifs <;> simp
        simp only [strEncodeUtf8, List.length_append, List.length_cons]
        omega
    omega)

/-- **C1** (confirmed): decoding the encoding of any well-formed structured
message yields the message again: for every embedded JSON value `m`,
`JSONSocketLoop.decode (JSONSocketLoop.encode m)` returns `m` (and in
particular raises nothing and never yields the `NO_MESSAGE` sentinel). -/
theorem decode_encode_roundtrip (m : Json) :
    JSONSocketLoop.decode (JSONSocketLoop.encode m) = .ok (some m) := by
  unfold JSONSocketLoop.encode JSONSocketLoop.decode
  rw [utf8_roundtrip_ascii (dumps m) (dumps_ascii m)]
  dsimp only
  rw [pyJsonLoads_dumps m]

end Robocluster
